import Mathlib

/-!
Verification development for the protocol-translation engine of a local
LLM proxy: a request transcoder (Anthropic Messages -> OpenAI chat
completions), a non-streaming response transcoder (OpenAI -> Anthropic),
and a stateful streaming converter that turns an OpenAI delta stream into
Anthropic Server-Sent Events.

The definitions below are a shallow embedding of the TypeScript source:
* `convertOpenAIStreamToAnthropic` / `processOpenAIChunk` and its helpers
  embed `src/utils/streamConverter.ts`;
* `transformClaudeToOpenAI` and `transformOpenAIToClaude` embed the
  message transcoders of the router module.

Modelling conventions:
* JavaScript truthiness of an optional string field (`undefined`, `null`
  and `""` are falsy) is `truthyS`.
* The downstream `TypeSafeStreamController` is modelled as never closed:
  the consumer keeps pulling.  All `controller.closed` guards in the
  source are therefore constantly false and the emitted events are
  collected in a list.
* `Date.now()` is modelled by a number `now` fixed when the per-stream
  state is created (the source calls it once for the message id and again
  for tool-call placeholder ids; only the `call_` prefix of those
  placeholders is ever inspected, so a single value is faithful).
* JavaScript `Map` objects are association lists kept in insertion order
  (`Map.set` of a fresh key appends; `Map.set` of a known key updates in
  place), matching the iteration order guarantees of `Map`.
-/

/-- JavaScript truthiness for an optional string field: present and nonempty. -/
def truthyS : Option String → Bool
  | some s => s ≠ ""
  | none => false

/-- Check that `pat` is a prefix of `l` (character lists). -/
def listStartsWith : List Char → List Char → Bool
  | _, [] => true
  | [], _ :: _ => false
  | a :: as, b :: bs => a = b && listStartsWith as bs

/-- JavaScript `String.prototype.startsWith` on our character-list strings. -/
def jsStartsWith (s pre : String) : Bool :=
  listStartsWith s.data pre.data

/-- Split a character list at the first occurrence of the (nonempty) pattern
`pat`, returning the part before the match and the part after it. -/
def findSplit (pat : List Char) : List Char → Option (List Char × List Char)
  | [] => none
  | c :: cs =>
    if listStartsWith (c :: cs) pat then some ([], (c :: cs).drop pat.length)
    else
      match findSplit pat cs with
      | some (pre, post) => some (c :: pre, post)
      | none => none

/-- JavaScript `str.replace(pat, repl)` with a string pattern: replace the
first occurrence only.  (All call sites in the source pass a nonempty
pattern.) -/
def jsReplaceFirst (s pat repl : String) : String :=
  match findSplit pat.data s.data with
  | some (pre, post) => String.mk (pre ++ repl.data ++ post)
  | none => s

/-- JavaScript `String.prototype.trim` (ASCII whitespace suffices for the
strings this system manipulates). -/
def jsTrim (s : String) : String :=
  String.mk (((s.data.dropWhile Char.isWhitespace).reverse.dropWhile Char.isWhitespace).reverse)

/-- First (leftmost, lazy) match of `openT ... closeT` in `s`: the inner text
of the regex `openT([\s\S]*?)closeT`, as used by `matchAll(...)[0][1]`. -/
def findTagInner (openT closeT s : String) : Option String :=
  match findSplit openT.data s.data with
  | none => none
  | some (_, afterOpen) =>
    match findSplit closeT.data afterOpen with
    | none => none
    | some (inner, _) => some (String.mk inner)

/-- One removal step used by `removeTagAll`; `fuel` bounds the recursion and
is always sufficient because every step consumes at least the two tag
delimiters from the remaining text. -/
def removeTagGo (openP closeP : List Char) : Nat → List Char → List Char
  | 0, s => s
  | Nat.succ fuel, s =>
    match findSplit openP s with
    | none => s
    | some (pre, afterOpen) =>
      match findSplit closeP afterOpen with
      | none => s
      | some (_, post) => pre ++ removeTagGo openP closeP fuel post

/-- JavaScript `content.replace(/openT([\s\S]*?)closeT/g, "")`: remove every
non-overlapping lazy match, scanning left to right. -/
def removeTagAll (openT closeT s : String) : String :=
  String.mk (removeTagGo openT.data closeT.data s.data.length s.data)

/-- The kind-specific payload of an Anthropic `content_block_start` event. -/
inductive ContentBlock where
  | text (t : String)
  | thinking (t : String)
  | toolUse (id name : String)
deriving Repr, DecidableEq

/-- The payload of an Anthropic `content_block_delta` event. -/
inductive Delta where
  | textDelta (t : String)
  | thinkingDelta (t : String)
  | signatureDelta (t : String)
  | inputJsonDelta (t : String)
deriving Repr, DecidableEq

/-- One Anthropic Server-Sent Event as emitted by the streaming converter.
`errorEvent mtype mtext` stands for the frame
`event: error / data: (type "error", nested message of type mtype and text
mtext)`; `messageDelta` carries the mapped stop reason together with the
final usage counts. -/
inductive SSEEvent where
  | messageStart (id model : String)
  | contentBlockStart (index : Nat) (block : ContentBlock)
  | contentBlockDelta (index : Nat) (delta : Delta)
  | contentBlockStop (index : Nat)
  | messageDelta (stopReason : String) (inputTokens outputTokens : Nat)
  | messageStop
  | errorEvent (mtype mtext : String)
deriving Repr, DecidableEq

/-- Accumulated per-tool-call record (`ToolCallInfo` in the source). -/
structure ToolCallInfo where
  id : String
  name : String
  arguments : String
  contentBlockIndex : Nat
deriving Repr, DecidableEq

/-- Lookup in an association list keyed by `Nat` (JavaScript `Map.get`). -/
def alGet {α : Type} : List (Nat × α) → Nat → Option α
  | [], _ => none
  | (k, v) :: rest, k' => if k = k' then some v else alGet rest k'

/-- JavaScript `Map.set`: update the first entry with the key in place, or
append a fresh entry at the end. -/
def alSet {α : Type} : List (Nat × α) → Nat → α → List (Nat × α)
  | [], k, v => [(k, v)]
  | (k0, v0) :: rest, k, v =>
    if k0 = k then (k0, v) :: rest else (k0, v0) :: alSet rest k v

/-- The mutable converter state (`StreamState` in the source), one instance
per streaming request. -/
structure StreamState where
  messageId : String
  model : String
  now : Nat
  hasStarted : Bool := false
  hasTextContentStarted : Bool := false
  hasFinished : Bool := false
  isThinkingStarted : Bool := false
  contentIndex : Nat := 0
  totalChunks : Nat := 0
  contentChunks : Nat := 0
  toolCallChunks : Nat := 0
  toolCalls : List (Nat × ToolCallInfo) := []
  toolCallIndexToContentBlockIndex : List (Nat × Nat) := []
  contentBuffer : String := ""
  thinkingBuffer : String := ""
  isInsideThinking : Bool := false
  hasThinkingContent : Bool := false
deriving Repr, DecidableEq

/-- Fresh state for one stream (`new StreamState()`), with the generated
message id `msg_(Date.now())` and model "unknown". -/
def initState (now : Nat) : StreamState :=
  { messageId := "msg_" ++ toString now, model := "unknown", now := now }

/-- One tool-call delta of an OpenAI stream chunk
(`choices[0].delta.tool_calls[i]`). -/
structure ToolCallDelta where
  index : Option Nat
  id : Option String
  name : Option String
  arguments : Option String
deriving Repr, DecidableEq

/-- The `delta` member of an OpenAI stream choice. -/
structure ChunkChoiceDelta where
  content : Option String
  tool_calls : Option (List ToolCallDelta)
deriving Repr, DecidableEq

/-- One element of `chunk.choices`. -/
structure ChunkChoice where
  delta : Option ChunkChoiceDelta
  finish_reason : Option String
deriving Repr, DecidableEq

/-- The `usage` member of an OpenAI stream chunk. -/
structure ChunkUsage where
  prompt_tokens : Option Nat
  completion_tokens : Option Nat
deriving Repr, DecidableEq

/-- One parsed OpenAI stream chunk (`OpenAIStreamChunk`).  `choices = none`
models an absent/null field; an empty array is present (and truthy). -/
structure OpenAIStreamChunk where
  id : Option String
  model : Option String
  choices : Option (List ChunkChoice)
  usage : Option ChunkUsage
deriving Repr, DecidableEq

/-- Source table mapping OpenAI finish reasons to Anthropic stop reasons,
including the `|| "end_turn"` default. -/
def stopReasonMapping (finishReason : String) : String :=
  if finishReason = "stop" then "end_turn"
  else if finishReason = "length" then "max_tokens"
  else if finishReason = "tool_calls" then "tool_use"
  else if finishReason = "content_filter" then "stop_sequence"
  else "end_turn"

/-- Result of `extractReasoningFromContent`. -/
structure ExtractResult where
  thinking : Option String
  regular : String
deriving Repr, DecidableEq

/-- The three XML-style reasoning tag pairs recognized by the source, tried
in this order with first-pattern-wins. -/
def tagPairs : List (String × String) :=
  [("<thinking>", "</thinking>"),
   ("<reasoning>", "</reasoning>"),
   ("<thoughts>", "</thoughts>")]

/-- Walk the tag-pattern list: the first pattern with a complete match
delivers the (trimmed) inner text of its first match and the buffer with
all matches of that pattern removed and trimmed. -/
def extractGo (content : String) : List (String × String) → ExtractResult
  | [] => { thinking := none, regular := content }
  | (o, c) :: rest =>
    match findTagInner o c content with
    | some inner =>
      { thinking := some (jsTrim inner),
        regular := jsTrim (removeTagAll o c content) }
    | none => extractGo content rest

/-- Source `extractReasoningFromContent`: scan the accumulated buffer for an
embedded reasoning segment. -/
def extractReasoningFromContent (content : String) : ExtractResult :=
  extractGo content tagPairs

/-- Source `handleExtractedThinking`: open a thinking block (closing an open
text block first), emit the thinking delta, and close the thinking block. -/
def handleExtractedThinking (thinkingContent : String) (s0 : StreamState) :
    StreamState × List SSEEvent :=
  let r1 :=
    if !s0.isThinkingStarted then
      let ra :=
        if s0.hasTextContentStarted then
          ({ s0 with contentIndex := s0.contentIndex + 1 },
           [SSEEvent.contentBlockStop s0.contentIndex])
        else (s0, ([] : List SSEEvent))
      ({ ra.1 with isThinkingStarted := true, hasThinkingContent := true },
       ra.2 ++ [SSEEvent.contentBlockStart ra.1.contentIndex (ContentBlock.thinking "")])
    else (s0, [])
  ({ r1.1 with contentIndex := r1.1.contentIndex + 1, isThinkingStarted := false },
   r1.2 ++ [SSEEvent.contentBlockDelta r1.1.contentIndex (Delta.thinkingDelta thinkingContent),
            SSEEvent.contentBlockStop r1.1.contentIndex])

/-- Source `handleRegularTextContent`: open the text block on first use and
emit the text delta. -/
def handleRegularTextContent (content : String) (s0 : StreamState) :
    StreamState × List SSEEvent :=
  let r1 :=
    if !s0.hasTextContentStarted && !s0.hasFinished then
      ({ s0 with hasTextContentStarted := true },
       ([SSEEvent.contentBlockStart s0.contentIndex (ContentBlock.text "")] : List SSEEvent))
    else (s0, [])
  if !r1.1.hasFinished then
    (r1.1, r1.2 ++ [SSEEvent.contentBlockDelta r1.1.contentIndex (Delta.textDelta content)])
  else r1

/-- The thinking branch of `handleTextContentWithReasoning`: the guard
`if (thinking && !state.hasThinkingContent)` around
`handleExtractedThinking`, factored out of the buffering function. -/
def handleThinkingStage (er : ExtractResult) (s1 : StreamState) :
    StreamState × List SSEEvent :=
  match er.thinking with
  | some t =>
    if t ≠ "" && !s1.hasThinkingContent then handleExtractedThinking t s1
    else (s1, [])
  | none => (s1, [])

/-- Source `handleTextContentWithReasoning`: buffer the delta, extract a
reasoning segment if one has completed (`handleThinkingStage` is the
guarded call into `handleExtractedThinking`), then emit the remaining
regular text and drop its first occurrence from the buffer. -/
def handleTextContentWithReasoning (content : String) (s0 : StreamState) :
    StreamState × List SSEEvent :=
  let s1 := { s0 with contentChunks := s0.contentChunks + 1,
                      contentBuffer := s0.contentBuffer ++ content }
  let er := extractReasoningFromContent s1.contentBuffer
  let r1 := handleThinkingStage er s1
  if er.regular ≠ "" then
    let r2 := handleRegularTextContent er.regular r1.1
    ({ r2.1 with contentBuffer := jsReplaceFirst r2.1.contentBuffer er.regular "" },
     r1.2 ++ r2.2)
  else r1

/-- The synthesized temporary tool-call id `call_(Date.now())_(index)`. -/
def placeholderId (now idx : Nat) : String :=
  "call_" ++ toString now ++ "_" ++ toString idx

/-- The synthesized temporary tool-call name `tool_(index)`. -/
def placeholderName (idx : Nat) : String :=
  "tool_" ++ toString idx

/-- Head of the per-delta loop of `handleToolCalls`: open a new tool-use
content block for an unknown source index (synthesizing placeholder
identity when absent), or overwrite a placeholder identity in place when
the real one arrives for a known index. -/
def toolCallOpenStage (s0 : StreamState) (tc : ToolCallDelta) :
    StreamState × List SSEEvent :=
  let idx := tc.index.getD 0
  if (alGet s0.toolCallIndexToContentBlockIndex idx).isNone then
      let newCBI :=
        if s0.hasTextContentStarted then s0.toolCallIndexToContentBlockIndex.length + 1
        else s0.toolCallIndexToContentBlockIndex.length
      let ra :=
        if newCBI ≠ 0 then
          ({ s0 with contentIndex := s0.contentIndex + 1 },
           [SSEEvent.contentBlockStop s0.contentIndex])
        else (s0, ([] : List SSEEvent))
      let m' := alSet ra.1.toolCallIndexToContentBlockIndex idx newCBI
      let sb := { ra.1 with toolCallIndexToContentBlockIndex := m' }
      let tid := if truthyS tc.id then tc.id.getD ""
                 else placeholderId sb.now idx
      let tname := if truthyS tc.name then tc.name.getD ""
                   else placeholderName idx
      let info : ToolCallInfo :=
        { id := tid, name := tname, arguments := "", contentBlockIndex := newCBI }
      let sc := { sb with toolCalls := alSet sb.toolCalls idx info }
      (sc, ra.2 ++ [SSEEvent.contentBlockStart sc.contentIndex (ContentBlock.toolUse tid tname)])
    else if truthyS tc.id && truthyS tc.name then
      match alGet s0.toolCalls idx with
      | some existing =>
        if jsStartsWith existing.id "call_" && jsStartsWith existing.name "tool_" then
          let upd := { existing with id := tc.id.getD "", name := tc.name.getD "" }
          ({ s0 with toolCalls := alSet s0.toolCalls idx upd }, [])
        else (s0, [])
      | none => (s0, [])
    else (s0, [])

/-- The argument-forwarding tail of the per-delta loop: append the fragment
to the accumulated arguments and emit it as an `input_json_delta`. -/
def toolCallArgsStage (idx : Nat) (tc : ToolCallDelta) (r1 : StreamState × List SSEEvent) :
    StreamState × List SSEEvent :=
  if truthyS tc.arguments && !r1.1.hasFinished then
    let args := tc.arguments.getD ""
    let s2 :=
      match alGet r1.1.toolCalls idx with
      | some cur =>
        let upd := { cur with arguments := cur.arguments ++ args }
        { r1.1 with toolCalls := alSet r1.1.toolCalls idx upd }
      | none => r1.1
    (s2, r1.2 ++ [SSEEvent.contentBlockDelta s2.contentIndex (Delta.inputJsonDelta args)])
  else r1

/-- Body of the per-delta loop of `handleToolCalls`: the block-opening /
identity-overwriting stage followed by the argument stage. -/
def processToolCallDelta (s0 : StreamState) (tc : ToolCallDelta) :
    StreamState × List SSEEvent :=
  toolCallArgsStage (tc.index.getD 0) tc (toolCallOpenStage s0 tc)

/-- The per-chunk loop of `handleToolCalls`, skipping duplicate source
indices within one chunk (the `processedInThisChunk` set). -/
def handleToolCallsGo (s : StreamState) (processed : List Nat) :
    List ToolCallDelta → StreamState × List SSEEvent
  | [] => (s, [])
  | tc :: rest =>
    let idx := tc.index.getD 0
    if idx ∈ processed then handleToolCallsGo s processed rest
    else
      let r1 := processToolCallDelta s tc
      let r2 := handleToolCallsGo r1.1 (idx :: processed) rest
      (r2.1, r1.2 ++ r2.2)

/-- Source `handleToolCalls`: bump the tool-call chunk counter and process
each delta of the chunk once per source index. -/
def handleToolCalls (toolCalls : List ToolCallDelta) (s : StreamState) :
    StreamState × List SSEEvent :=
  handleToolCallsGo { s with toolCallChunks := s.toolCallChunks + 1 } [] toolCalls

/-- Source `handleFinishReason`: latch `hasFinished`, close the open content
block when one was produced, and emit `message_delta` (mapped stop reason,
usage counts defaulting to zero) followed by `message_stop`. -/
def handleFinishReason (finishReason : String) (usage : Option ChunkUsage)
    (s : StreamState) : StreamState × List SSEEvent :=
  let s1 := { s with hasFinished := true }
  let closeEvs :=
    if s1.hasTextContentStarted || s1.toolCallChunks > 0 then
      [SSEEvent.contentBlockStop s1.contentIndex]
    else []
  let pt := (usage.bind ChunkUsage.prompt_tokens).getD 0
  let ct := (usage.bind ChunkUsage.completion_tokens).getD 0
  (s1, closeEvs ++
    [SSEEvent.messageDelta (stopReasonMapping finishReason) pt ct,
     SSEEvent.messageStop])

/-- The guarded text-content step of a chunk: `if (choice.delta?.content &&
...)` around `handleTextContentWithReasoning`. -/
def textStage (choice : ChunkChoice) (s : StreamState) : StreamState × List SSEEvent :=
  if truthyS (choice.delta.bind ChunkChoiceDelta.content) && !s.hasFinished then
    handleTextContentWithReasoning ((choice.delta.bind ChunkChoiceDelta.content).getD "") s
  else (s, [])

/-- The guarded tool-call step of a chunk: `if (choice.delta?.tool_calls &&
...)` around `handleToolCalls`. -/
def toolStage (choice : ChunkChoice) (s : StreamState) : StreamState × List SSEEvent :=
  match choice.delta.bind ChunkChoiceDelta.tool_calls with
  | some tcs => if !s.hasFinished then handleToolCalls tcs s else (s, [])
  | none => (s, [])

/-- The guarded finish step of a chunk: `if (choice.finish_reason && ...)`
around `handleFinishReason`. -/
def finStage (choice : ChunkChoice) (usage : Option ChunkUsage) (s : StreamState) :
    StreamState × List SSEEvent :=
  if truthyS choice.finish_reason && !s.hasFinished then
    handleFinishReason (choice.finish_reason.getD "") usage s
  else (s, [])

/-- Handling of the first choice of a chunk: text content with reasoning
extraction, then tool calls, then the finish reason; `r` carries the state
and events accumulated by the `message_start` step. -/
def chunkChoiceStage (choice : ChunkChoice) (usage : Option ChunkUsage)
    (r : StreamState × List SSEEvent) : StreamState × List SSEEvent :=
  let rText := textStage choice r.1
  let rTool := toolStage choice rText.1
  let rFin := finStage choice usage rTool.1
  (rFin.1, r.2 ++ rText.2 ++ rTool.2 ++ rFin.2)

/-- The model-propagation and `message_start` stage of a chunk: update the
model name from the chunk when truthy, and emit the envelope start event
once (first valid chunk of an unfinished stream). -/
def startStage (chunk : OpenAIStreamChunk) (s0 : StreamState) :
    StreamState × List SSEEvent :=
  let s1 := if truthyS chunk.model then { s0 with model := chunk.model.getD "" } else s0
  if !s1.hasStarted && !s1.hasFinished then
    ({ s1 with hasStarted := true },
     ([SSEEvent.messageStart s1.messageId s1.model] : List SSEEvent))
  else (s1, [])

/-- Source `processOpenAIChunk`: count the chunk; a chunk with no choices,
no model and no id field yields one error event and is otherwise ignored; a
valid chunk goes through the model/`message_start` stage and then the
first-choice stage. -/
def processOpenAIChunk (chunk : OpenAIStreamChunk) (s : StreamState) :
    StreamState × List SSEEvent :=
  let s0 := { s with totalChunks := s.totalChunks + 1 }
  if chunk.choices.isNone && !truthyS chunk.model && !truthyS chunk.id then
    (s0, [SSEEvent.errorEvent "api_error" "Invalid chunk format"])
  else
    let rStart := startStage chunk s0
    match chunk.choices.bind List.head? with
    | none => rStart
    | some choice => chunkChoiceStage choice chunk.usage rStart

/-- One complete line of the upstream byte stream, as classified by the read
loop of `convertOpenAIStreamToAnthropic`: a `data:` line with valid JSON
(already parsed), a `data:` line whose JSON fails to parse, the
`data: [DONE]` sentinel, or a line not starting with `data: `. -/
inductive StreamLine where
  | data (chunk : OpenAIStreamChunk)
  | garbage
  | doneMarker
  | nonData
deriving Repr, DecidableEq

/-- Per-line behaviour of the read loop: only parsed `data:` chunks are
processed; the sentinel, non-data lines and unparseable lines are skipped
(the latter merely logged). -/
def processLine (s : StreamState) : StreamLine → StreamState × List SSEEvent
  | StreamLine.data c => processOpenAIChunk c s
  | _ => (s, [])

/-- The line-consumption loop: before each line the loop stops once the
stream has finished (`state.hasFinished` breaks out), otherwise the line is
processed and its events appended. -/
def runLines (s : StreamState) : List StreamLine → StreamState × List SSEEvent
  | [] => (s, [])
  | l :: ls =>
    if s.hasFinished then (s, [])
    else
      let r1 := processLine s l
      let r2 := runLines r1.1 ls
      (r2.1, r1.2 ++ r2.2)

/-- Source `convertOpenAIStreamToAnthropic`, restricted to its observable
output: the sequence of SSE events produced for a list of complete upstream
lines, starting from a fresh per-stream state. -/
def convertOpenAIStreamToAnthropic (now : Nat) (lines : List StreamLine) :
    List SSEEvent :=
  (runLines (initState now) lines).2


/-- Image source of an Anthropic image block: inline base64 or URL. -/
inductive ImgSource where
  | base64 (mediaType data : String)
  | url (u : String)
deriving Repr, DecidableEq

/-- One Anthropic (target-protocol) content block.  `toolUse` carries its
input already JSON-stringified (the source transcoder only ever applies
`JSON.stringify` to it, so the string is the faithful observable);
`toolResult` likewise carries its content as the string the source would
forward (`content` itself when a string, else its stringification). -/
inductive CBlock where
  | text (t : String)
  | image (source : Option ImgSource)
  | toolUse (id name input : String)
  | toolResult (toolUseId content : String)
  | other
deriving Repr, DecidableEq

/-- Anthropic message content: a plain string or an array of blocks. -/
inductive CContent where
  | str (s : String)
  | blocks (bs : List CBlock)
deriving Repr, DecidableEq

/-- One Anthropic conversation message. -/
structure CMsg where
  role : String
  content : CContent
deriving Repr, DecidableEq

/-- The request's system prompt: a string or an array of text parts. -/
inductive SystemPrompt where
  | str (s : String)
  | arr (items : List String)
deriving Repr, DecidableEq

/-- Join a list of strings with a separator (JavaScript `Array.join`). -/
def joinSep (sep : String) : List String → String
  | [] => ""
  | [x] => x
  | x :: xs => x ++ sep ++ joinSep sep xs

/-- One part of an OpenAI user-content array. -/
inductive OPart where
  | text (t : String)
  | imageUrl (u : String)
deriving Repr, DecidableEq

/-- OpenAI message content: a plain string or an array of parts. -/
inductive OContent where
  | str (s : String)
  | parts (ps : List OPart)
deriving Repr, DecidableEq

/-- One OpenAI tool call of an assistant message (`id`, function `name`,
JSON-stringified `arguments`). -/
structure OToolCall where
  id : String
  name : String
  arguments : String
deriving Repr, DecidableEq

/-- One OpenAI (source-protocol) chat message as built by the transcoder. -/
structure OMsg where
  role : String
  content : Option OContent
  tool_calls : List OToolCall := []
  tool_call_id : Option String := none
deriving Repr, DecidableEq

/-- Lookup in the pending-tool-responses map (JavaScript `Map.get`). -/
def qGet : List (String × List OMsg) → String → Option (List OMsg)
  | [], _ => none
  | (k, v) :: rest, k' => if k = k' then some v else qGet rest k'

/-- Append a response under its `tool_use_id` key, creating the entry at the
end on first use (JavaScript `Map` insertion order). -/
def qPush : List (String × List OMsg) → String → OMsg → List (String × List OMsg)
  | [], k, m => [(k, [m])]
  | (k0, v0) :: rest, k, m =>
    if k0 = k then (k0, v0 ++ [m]) :: rest else (k0, v0) :: qPush rest k m

/-- Remove an entry (JavaScript `Map.delete`; keys are unique by
construction). -/
def qDelete : List (String × List OMsg) → String → List (String × List OMsg)
  | [], _ => []
  | (k0, v0) :: rest, k => if k0 = k then rest else (k0, v0) :: qDelete rest k

/-- The tool-role message built for one `tool_result` block. -/
def toolResultMsg (content toolUseId : String) : OMsg :=
  { role := "tool", content := some (OContent.str content), tool_call_id := some toolUseId }

/-- First pass of `transformClaudeToOpenAI` over one block array: queue every
`tool_result` block with a truthy `tool_use_id`. -/
def collectBlocks (q : List (String × List OMsg)) : List CBlock → List (String × List OMsg)
  | [] => q
  | CBlock.toolResult tid c :: rest =>
    if tid ≠ "" then collectBlocks (qPush q tid (toolResultMsg c tid)) rest
    else collectBlocks q rest
  | _ :: rest => collectBlocks q rest

/-- First pass of `transformClaudeToOpenAI` over the whole history. -/
def collectToolResponses : List CMsg → List (String × List OMsg) :=
  List.foldl (fun q m =>
    match m.content with
    | CContent.blocks bs => collectBlocks q bs
    | _ => q) []

/-- Filter of the user branch: text blocks with nonempty text, image blocks
with a source. -/
def isUserPart : CBlock → Bool
  | CBlock.text t => t ≠ ""
  | CBlock.image s => s.isSome
  | _ => false

/-- Translate a filtered user part; images become `image_url` parts (base64
payloads as data URIs, URL references unchanged). -/
def userPartToOPart : CBlock → OPart
  | CBlock.text t => OPart.text t
  | CBlock.image (some (ImgSource.base64 mt d)) => OPart.imageUrl ("data:" ++ mt ++ ";base64," ++ d)
  | CBlock.image (some (ImgSource.url u)) => OPart.imageUrl u
  | _ => OPart.text ""

/-- The user branch of the message walk: no qualifying part drops the
message; a single text part collapses to plain string content. -/
def userMessageOut (bs : List CBlock) : List OMsg :=
  match bs.filter isUserPart with
  | [] => []
  | [CBlock.text t] => [{ role := "user", content := some (OContent.str t) }]
  | parts => [{ role := "user", content := some (OContent.parts (parts.map userPartToOPart)) }]

/-- Assistant text-part filter (`type === "text" && text`). -/
def isTextPart : CBlock → Bool
  | CBlock.text t => t ≠ ""
  | _ => false

/-- Text of a text block. -/
def textOf : CBlock → String
  | CBlock.text t => t
  | _ => ""

/-- Assistant tool-call filter (`type === "tool_use" && id`). -/
def isToolUsePart : CBlock → Bool
  | CBlock.toolUse id _ _ => id ≠ ""
  | _ => false

/-- Id of a `tool_use` block. -/
def blockToolId : CBlock → String
  | CBlock.toolUse id _ _ => id
  | _ => ""

/-- Translate a `tool_use` block to an OpenAI tool call. -/
def toOToolCall : CBlock → OToolCall
  | CBlock.toolUse id name input => { id := id, name := name, arguments := input }
  | _ => { id := "", name := "", arguments := "" }

/-- Ids of an assistant message's tool calls in order of appearance. -/
def toolUseIds (bs : List CBlock) : List String :=
  (bs.filter isToolUsePart).map blockToolId

/-- The assistant message built by the walk: text parts joined with
newlines (content null when none), plus the tool-call array. -/
def assistantMessageOut (bs : List CBlock) : OMsg :=
  let textParts := bs.filter isTextPart
  let contentOpt :=
    if textParts.isEmpty then none
    else some (OContent.str (joinSep "\n" (textParts.map textOf)))
  { role := "assistant", content := contentOpt,
    tool_calls := (bs.filter isToolUsePart).map toOToolCall }

/-- Flush the buffered result messages of the given tool-call ids in order,
deleting each consumed entry. -/
def flushResults (q : List (String × List OMsg)) :
    List String → List OMsg × List (String × List OMsg)
  | [] => ([], q)
  | id :: ids =>
    match qGet q id with
    | some rs =>
      let (out, q') := flushResults (qDelete q id) ids
      (rs ++ out, q')
    | none => flushResults q ids

/-- Second-pass contribution of one message: plain-string messages pass
through with their role; user block arrays go through the user branch;
assistant block arrays yield the assistant message immediately followed by
the buffered results of its tool calls; any other role with array content
contributes nothing. -/
def processMessage (m : CMsg) (q : List (String × List OMsg)) :
    List OMsg × List (String × List OMsg) :=
  match m.content with
  | CContent.str s => ([{ role := m.role, content := some (OContent.str s) }], q)
  | CContent.blocks bs =>
    if m.role = "user" then (userMessageOut bs, q)
    else if m.role = "assistant" then
      let (res, q') := flushResults q (toolUseIds bs)
      (assistantMessageOut bs :: res, q')
    else ([], q)

/-- The second pass over the message history, threading the pending-results
queue. -/
def processMessages (q : List (String × List OMsg)) :
    List CMsg → List OMsg × List (String × List OMsg)
  | [] => ([], q)
  | m :: ms =>
    let (out1, q1) := processMessage m q
    let (out2, q2) := processMessages q1 ms
    (out1 ++ out2, q2)

/-- Defensive fallback: every pending result never matched to a tool call is
appended at the end, in `Map` iteration (insertion) order. -/
def leftoverMsgs (q : List (String × List OMsg)) : List OMsg :=
  q.flatMap Prod.snd

/-- System prompt handling: a truthy string becomes one system message; an
array is concatenated with single spaces. -/
def systemMessages : Option SystemPrompt → List OMsg
  | none => []
  | some (SystemPrompt.str s) =>
    if s = "" then [] else [{ role := "system", content := some (OContent.str s) }]
  | some (SystemPrompt.arr items) =>
    [{ role := "system", content := some (OContent.str (joinSep " " items)) }]

/-- Source `transformClaudeToOpenAI`, restricted to its `messages` output
(the only part of the produced request the verified claims are about):
system message first, then the two-pass walk, then the unmatched pending
results. -/
def transformClaudeToOpenAI (system : Option SystemPrompt) (messages : List CMsg) :
    List OMsg :=
  let q0 := collectToolResponses messages
  let (out, qF) := processMessages q0 messages
  systemMessages system ++ out ++ leftoverMsgs qF

/-- One tool call of a complete (non-streaming) OpenAI response message;
`id`, function `name` and the function's raw `arguments` string (absent
models `undefined`). -/
structure RespToolCall where
  id : String
  name : String
  arguments : Option String
deriving Repr, DecidableEq

/-- One URL citation as carried by the response's annotation list (the
source reads `url_citation.url` and `url_citation.title`). -/
structure WebCitation where
  url : Option String
  title : Option String
deriving Repr, DecidableEq

/-- The message of a complete OpenAI response choice.  `urlCitations`
models the message's optional web-citation array (named `annotations`
in the source schema). -/
structure RespMessage where
  content : Option String
  tool_calls : Option (List RespToolCall)
  urlCitations : Option (List WebCitation)
deriving Repr, DecidableEq

/-- One choice of a complete OpenAI response. -/
structure RespChoice where
  message : RespMessage
  finish_reason : Option String
deriving Repr, DecidableEq

/-- Usage counters of a complete OpenAI response. -/
structure RespUsage where
  prompt_tokens : Nat
  completion_tokens : Nat
deriving Repr, DecidableEq

/-- A complete OpenAI chat-completion response.  An absent/null `choices`
field and an empty array take the same (empty) representation: the source
guard `!choices || choices.length === 0` treats them identically. -/
structure OpenAIResponse where
  id : Option String
  model : String
  choices : List RespChoice
  usage : Option RespUsage
deriving Repr, DecidableEq

/-- The input of an emitted `tool_use` block: the JSON value the host
language parsed, or the graceful fallback object `(text: raw)` built from
the raw argument string when parsing failed. -/
inductive ToolInput (J : Type) where
  | json (j : J)
  | textFallback (raw : String)
deriving Repr, DecidableEq

/-- One content block of the transcoded Claude message. -/
inductive OutBlock (J : Type) where
  | text (t : String)
  | toolUse (id name : String) (input : ToolInput J)
  | serverToolUse (id name : String)
  | webSearchToolResult (toolUseId : String) (results : List WebCitation)
deriving Repr, DecidableEq

/-- Usage of the transcoded Claude message (the fields the source always
emits as explicit nulls are constant and omitted here). -/
structure ClaudeUsage where
  input_tokens : Nat
  output_tokens : Nat
deriving Repr, DecidableEq

/-- The transcoded Claude message (`type` and `role` are the constants
"message"/"assistant" and `stop_sequence` the constant null). -/
structure ClaudeMessage (J : Type) where
  id : String
  content : List (OutBlock J)
  model : String
  stop_reason : String
  usage : ClaudeUsage
deriving Repr, DecidableEq

/-- Source `transformOpenAIToClaude`.  `JSON.parse` of the host language is
the explicit parameter `parse` (returning `none` exactly on the strings
that are not valid JSON); `now` models `Date.now()`.  Throws — returns
`Except.error` — if and only if the response has no choices; a tool call
whose (defaulted) argument string fails to parse degrades to the
`textFallback` input instead of failing the response. -/
def transformOpenAIToClaude {J : Type} (parse : String → Option J) (now : Nat)
    (resp : OpenAIResponse) : Except String (ClaudeMessage J) :=
  match resp.choices with
  | [] => Except.error "No choices in OpenAI response"
  | choice :: _ =>
    let message := choice.message
    let textBlocks : List (OutBlock J) :=
      if truthyS message.content then [OutBlock.text (message.content.getD "")] else []
    let toolBlocks : List (OutBlock J) :=
      match message.tool_calls with
      | some tcs =>
        if tcs ≠ [] then
          tcs.map (fun tc =>
            let rawArgs := tc.arguments.getD ""
            let argumentsStr := if rawArgs = "" then "\x7b\x7d" else rawArgs
            let input :=
              match parse argumentsStr with
              | some j => ToolInput.json j
              | none => ToolInput.textFallback rawArgs
            OutBlock.toolUse tc.id tc.name input)
        else []
      | none => []
    let srvId := "srvtoolu_" ++ toString now
    let citBlocks : List (OutBlock J) :=
      match message.urlCitations with
      | some cits =>
        [OutBlock.serverToolUse srvId "web_search",
         OutBlock.webSearchToolResult srvId cits]
      | none => []
    let content := textBlocks ++ toolBlocks ++ citBlocks
    Except.ok
      { id := if truthyS resp.id then resp.id.getD "" else "msg_" ++ toString now,
        content := if content.isEmpty then [OutBlock.text ""] else content,
        model := resp.model,
        stop_reason := stopReasonMapping (choice.finish_reason.getD ""),
        usage :=
          match resp.usage with
          | some u => { input_tokens := u.prompt_tokens, output_tokens := u.completion_tokens }
          | none => { input_tokens := 0, output_tokens := 0 } }

/-- A chunk carrying one plain text delta. -/
def mkTextChunk (t : String) : OpenAIStreamChunk :=
  { id := none, model := none,
    choices := some [{ delta := some { content := some t, tool_calls := none },
                       finish_reason := none }],
    usage := none }

/-- A chunk carrying one tool-call delta. -/
def mkToolChunk (tc : ToolCallDelta) : OpenAIStreamChunk :=
  { id := none, model := none,
    choices := some [{ delta := some { content := none, tool_calls := some [tc] },
                       finish_reason := none }],
    usage := none }

/-- A chunk carrying only a finish reason (and optional usage). -/
def mkFinishChunk (fr : String) (u : Option ChunkUsage) : OpenAIStreamChunk :=
  { id := none, model := none,
    choices := some [{ delta := none, finish_reason := some fr }],
    usage := u }

/-- A chunk with no choices, no model and no id: the malformed shape the
converter answers with an error event. -/
def invalidChunk : OpenAIStreamChunk :=
  { id := none, model := none, choices := none, usage := none }

/-- The payloads of the text deltas of an event sequence, in order. -/
def textDeltas (evs : List SSEEvent) : List String :=
  evs.filterMap fun e =>
    match e with
    | SSEEvent.contentBlockDelta _ (Delta.textDelta t) => some t
    | _ => none

/-- The payloads of the thinking deltas of an event sequence, in order. -/
def thinkingDeltas (evs : List SSEEvent) : List String :=
  evs.filterMap fun e =>
    match e with
    | SSEEvent.contentBlockDelta _ (Delta.thinkingDelta t) => some t
    | _ => none

/-- A finished stream processes no further lines and emits nothing more. -/
theorem runLines_finished (s : StreamState) (ls : List StreamLine)
    (h : s.hasFinished = true) : runLines s ls = (s, []) := by
  cases ls with
  | nil => rfl
  | cons l ls => simp [runLines, h]

/-- Skipped lines (garbage, the DONE sentinel, non-data lines) are an
identity of the run. -/
theorem runLines_cons_garbage (s : StreamState) (ls : List StreamLine) :
    runLines s (StreamLine.garbage :: ls) = runLines s ls := by
  by_cases h : s.hasFinished = true
  · simp [runLines, h, runLines_finished s ls h]
  · simp at h
    simp [runLines, h, processLine]

/-- Unfolding equation of `runLines` for a nonempty line list. -/
theorem runLines_cons (s : StreamState) (l : StreamLine) (ls : List StreamLine) :
    runLines s (l :: ls) =
      if s.hasFinished = true then (s, [])
      else
        ((runLines (processLine s l).1 ls).1,
         (processLine s l).2 ++ (runLines (processLine s l).1 ls).2) := rfl

/-- C8: a stream consisting of a valid chunk line, one data line whose JSON
payload fails to parse, and another valid chunk line emits exactly the
events implied by the two valid chunks: the unparseable line contributes
zero events, does not terminate the stream and surfaces no error to the
consumer. -/
theorem c8_garbage_line_resilience (now : Nat) (c1 c2 : OpenAIStreamChunk) :
    convertOpenAIStreamToAnthropic now
        [StreamLine.data c1, StreamLine.garbage, StreamLine.data c2] =
      convertOpenAIStreamToAnthropic now [StreamLine.data c1, StreamLine.data c2] := by
  unfold convertOpenAIStreamToAnthropic
  rw [runLines_cons (initState now) (StreamLine.data c1)
        [StreamLine.garbage, StreamLine.data c2],
      runLines_cons (initState now) (StreamLine.data c1) [StreamLine.data c2],
      runLines_cons_garbage]

/-- C9: a parsed chunk with no choices, no model and no id yields exactly
one error event (type "error", nested message of type "api_error" and text
"Invalid chunk format") and changes nothing in the state but the chunk
counter; when it is the first chunk of the stream, the error event comes
before any `message_start`. -/
theorem c9_invalid_chunk_error (c : OpenAIStreamChunk) (h1 : c.choices = none)
    (h2 : c.model = none) (h3 : c.id = none) :
    (∀ s, processOpenAIChunk c s =
      ({ s with totalChunks := s.totalChunks + 1 },
       [SSEEvent.errorEvent "api_error" "Invalid chunk format"])) ∧
    (∀ now rest, convertOpenAIStreamToAnthropic now (StreamLine.data c :: rest) =
      SSEEvent.errorEvent "api_error" "Invalid chunk format" ::
        (runLines { initState now with totalChunks := 1 } rest).2) := by
  have hmain : ∀ s, processOpenAIChunk c s =
      ({ s with totalChunks := s.totalChunks + 1 },
       [SSEEvent.errorEvent "api_error" "Invalid chunk format"]) := by
    intro s
    simp [processOpenAIChunk, h1, h2, h3, truthyS]
  refine ⟨hmain, ?_⟩
  intro now rest
  unfold convertOpenAIStreamToAnthropic
  have hInit : (initState now).hasFinished = false := rfl
  simp only [runLines, hInit, Bool.false_eq_true, if_false, processLine, hmain]
  rfl

/-- Closed witness for `c9_invalid_chunk_error` at the concrete malformed
chunk and a concrete stream continuation. -/
theorem c9_invalid_chunk_error_witness :
    (∀ s, processOpenAIChunk invalidChunk s =
      ({ s with totalChunks := s.totalChunks + 1 },
       [SSEEvent.errorEvent "api_error" "Invalid chunk format"])) ∧
    (∀ now rest, convertOpenAIStreamToAnthropic now (StreamLine.data invalidChunk :: rest) =
      SSEEvent.errorEvent "api_error" "Invalid chunk format" ::
        (runLines { initState now with totalChunks := 1 } rest).2) :=
  c9_invalid_chunk_error invalidChunk rfl rfl rfl

/-- C2 counterexample: when the whole text
"before <thinking>hidden</thinking> after" arrives in a single delta chunk,
the converter emits the thinking block first and a single text delta
"before  after" after it — no text delta "before " (nor "before") exists at
all, so no thinking block can sit strictly between a "before " fragment and
an "after" fragment for this split. -/
theorem c2_single_chunk_counterexample :
    textDeltas (convertOpenAIStreamToAnthropic 0
        [StreamLine.data (mkTextChunk "before <thinking>hidden</thinking> after")]) =
      ["before  after"] ∧
    thinkingDeltas (convertOpenAIStreamToAnthropic 0
        [StreamLine.data (mkTextChunk "before <thinking>hidden</thinking> after")]) =
      ["hidden"] := by
  constructor <;> decide

/-- C2 (amended): for the delta split in which "before " arrives first,
then the complete "<thinking>hidden</thinking>" tag, then " after", the
emitted sequence contains the thinking block with delta content "hidden"
strictly between a text delta "before " and a text delta "after" (the
latter trimmed by the tag-stripping rule). -/
theorem c2_reasoning_extraction_split :
    convertOpenAIStreamToAnthropic 0
        [StreamLine.data (mkTextChunk "before "),
         StreamLine.data (mkTextChunk "<thinking>hidden</thinking>"),
         StreamLine.data (mkTextChunk " after")] =
      [SSEEvent.messageStart "msg_0" "unknown",
       SSEEvent.contentBlockStart 0 (ContentBlock.text ""),
       SSEEvent.contentBlockDelta 0 (Delta.textDelta "before "),
       SSEEvent.contentBlockStop 0,
       SSEEvent.contentBlockStart 1 (ContentBlock.thinking ""),
       SSEEvent.contentBlockDelta 1 (Delta.thinkingDelta "hidden"),
       SSEEvent.contentBlockStop 1,
       SSEEvent.contentBlockDelta 2 (Delta.textDelta "after")] := by
  decide

/-- A list always starts with its own prefix. -/
theorem listStartsWith_append (a b : List Char) : listStartsWith (a ++ b) a = true := by
  induction a with
  | nil => cases b <;> rfl
  | cons c a ih => simp [listStartsWith, ih]

/-- A string starts with its own prefix. -/
theorem jsStartsWith_append (pre s : String) : jsStartsWith (pre ++ s) pre = true := by
  rw [jsStartsWith, String.data_append]
  exact listStartsWith_append pre.data s.data

/-- The synthesized tool-call id starts with "call_". -/
theorem placeholderId_startsWith (now idx : Nat) :
    jsStartsWith (placeholderId now idx) "call_" = true := by
  rw [placeholderId, String.append_assoc, String.append_assoc]
  exact jsStartsWith_append "call_" _

/-- The synthesized tool-call name starts with "tool_". -/
theorem placeholderName_startsWith (idx : Nat) :
    jsStartsWith (placeholderName idx) "tool_" = true :=
  jsStartsWith_append "tool_" _

/-- C4 (amended): when a tool call's identity arrives split across two
deltas with the same source index — the first carrying neither id nor
function name, the second carrying a (truthy) id and function name — the
converter emits exactly one `content_block_start` for the tool call,
initially with the synthesized placeholder id and name, and the later delta
overwrites the stored identity in place without a second start event. -/
theorem c4_split_tool_call_identity (now : Nat) (i n : String)
    (hi : i ≠ "") (hn : n ≠ "") :
    (runLines (initState now)
        [StreamLine.data (mkToolChunk
           { index := some 0, id := none, name := none, arguments := none }),
         StreamLine.data (mkToolChunk
           { index := some 0, id := some i, name := some n, arguments := none })]).2 =
      [SSEEvent.messageStart ("msg_" ++ toString now) "unknown",
       SSEEvent.contentBlockStart 0
         (ContentBlock.toolUse (placeholderId now 0) (placeholderName 0))] ∧
    alGet (runLines (initState now)
        [StreamLine.data (mkToolChunk
           { index := some 0, id := none, name := none, arguments := none }),
         StreamLine.data (mkToolChunk
           { index := some 0, id := some i, name := some n, arguments := none })]).1.toolCalls 0 =
      some { id := i, name := n, arguments := "", contentBlockIndex := 0 } := by
  constructor <;>
    simp [runLines, processLine, processOpenAIChunk, startStage, chunkChoiceStage,
      textStage, toolStage, finStage, mkToolChunk, initState,
      truthyS, handleToolCalls, handleToolCallsGo, processToolCallDelta,
      toolCallOpenStage, toolCallArgsStage,
      alGet, alSet, hi, hn, placeholderId_startsWith, placeholderName_startsWith]

/-- Closed witness for `c4_split_tool_call_identity` at concrete inputs. -/
theorem c4_split_tool_call_identity_witness :
    (runLines (initState 5)
        [StreamLine.data (mkToolChunk
           { index := some 0, id := none, name := none, arguments := none }),
         StreamLine.data (mkToolChunk
           { index := some 0, id := some "abc", name := some "fn", arguments := none })]).2 =
      [SSEEvent.messageStart ("msg_" ++ toString 5) "unknown",
       SSEEvent.contentBlockStart 0
         (ContentBlock.toolUse (placeholderId 5 0) (placeholderName 0))] ∧
    alGet (runLines (initState 5)
        [StreamLine.data (mkToolChunk
           { index := some 0, id := none, name := none, arguments := none }),
         StreamLine.data (mkToolChunk
           { index := some 0, id := some "abc", name := some "fn", arguments := none })]).1.toolCalls 0 =
      some { id := "abc", name := "fn", arguments := "", contentBlockIndex := 0 } :=
  c4_split_tool_call_identity 5 "abc" "fn" (by decide) (by decide)

/-- C4 counterexample: the claim quantifies over every pair of deltas in
which only the id is missing from the first.  If the first delta carries a
function name ("foo") but no id, the `content_block_start` carries that
real name (not a synthesized placeholder name), and the later delta with
id "x" and name "bar" does not overwrite the stored identity — the
temporary-identity test `id.startsWith("call_") && name.startsWith("tool_")`
fails — so the stored tool call keeps the placeholder id and the name
"foo". -/
theorem c4_first_delta_with_name_counterexample :
    alGet (runLines (initState 0)
        [StreamLine.data (mkToolChunk
           { index := some 0, id := none, name := some "foo", arguments := none }),
         StreamLine.data (mkToolChunk
           { index := some 0, id := some "x", name := some "bar", arguments := none })]).1.toolCalls 0 =
      some { id := "call_0_0", name := "foo", arguments := "", contentBlockIndex := 0 } ∧
    (runLines (initState 0)
        [StreamLine.data (mkToolChunk
           { index := some 0, id := none, name := some "foo", arguments := none }),
         StreamLine.data (mkToolChunk
           { index := some 0, id := some "x", name := some "bar", arguments := none })]).2 =
      [SSEEvent.messageStart "msg_0" "unknown",
       SSEEvent.contentBlockStart 0 (ContentBlock.toolUse "call_0_0" "foo")] := by
  constructor <;> decide

/-- Events other than the `message_start`/`message_stop` envelope pair. -/
def isBodyEvent : SSEEvent → Bool
  | SSEEvent.messageStart _ _ => false
  | SSEEvent.messageStop => false
  | _ => true

/-- The events of `handleRegularTextContent` are body events. -/
theorem handleRegularTextContent_body (t : String) (s : StreamState) :
    (handleRegularTextContent t s).2.all isBodyEvent = true := by
  unfold handleRegularTextContent
  cases hT : s.hasTextContentStarted <;> cases hF : s.hasFinished <;>
    simp [hT, hF, isBodyEvent]

/-- The finish latch is untouched by `handleRegularTextContent`. -/
theorem handleRegularTextContent_hasFinished (t : String) (s : StreamState) :
    (handleRegularTextContent t s).1.hasFinished = s.hasFinished := by
  unfold handleRegularTextContent
  cases hT : s.hasTextContentStarted <;> cases hF : s.hasFinished <;> simp [hT, hF]

/-- The start latch is untouched by `handleRegularTextContent`. -/
theorem handleRegularTextContent_hasStarted (t : String) (s : StreamState) :
    (handleRegularTextContent t s).1.hasStarted = s.hasStarted := by
  unfold handleRegularTextContent
  cases hT : s.hasTextContentStarted <;> cases hF : s.hasFinished <;> simp [hT, hF]

/-- The tool-call index map is untouched by `handleRegularTextContent`. -/
theorem handleRegularTextContent_map (t : String) (s : StreamState) :
    (handleRegularTextContent t s).1.toolCallIndexToContentBlockIndex =
      s.toolCallIndexToContentBlockIndex := by
  unfold handleRegularTextContent
  cases hT : s.hasTextContentStarted <;> cases hF : s.hasFinished <;> simp [hT, hF]

/-- The text-block flag after `handleRegularTextContent`. -/
theorem handleRegularTextContent_hasText (t : String) (s : StreamState) :
    (handleRegularTextContent t s).1.hasTextContentStarted =
      (s.hasTextContentStarted || !s.hasFinished) := by
  unfold handleRegularTextContent
  cases hT : s.hasTextContentStarted <;> cases hF : s.hasFinished <;> simp [hT, hF]

/-- The events of `handleExtractedThinking` are body events. -/
theorem handleExtractedThinking_body (t : String) (s : StreamState) :
    (handleExtractedThinking t s).2.all isBodyEvent = true := by
  unfold handleExtractedThinking
  cases hI : s.isThinkingStarted <;> cases hT : s.hasTextContentStarted <;>
    simp [hI, hT, isBodyEvent]

/-- The finish latch is untouched by `handleExtractedThinking`. -/
theorem handleExtractedThinking_hasFinished (t : String) (s : StreamState) :
    (handleExtractedThinking t s).1.hasFinished = s.hasFinished := by
  unfold handleExtractedThinking
  cases hI : s.isThinkingStarted <;> cases hT : s.hasTextContentStarted <;> simp [hI, hT]

/-- The start latch is untouched by `handleExtractedThinking`. -/
theorem handleExtractedThinking_hasStarted (t : String) (s : StreamState) :
    (handleExtractedThinking t s).1.hasStarted = s.hasStarted := by
  unfold handleExtractedThinking
  cases hI : s.isThinkingStarted <;> cases hT : s.hasTextContentStarted <;> simp [hI, hT]

/-- The tool-call index map is untouched by `handleExtractedThinking`. -/
theorem handleExtractedThinking_map (t : String) (s : StreamState) :
    (handleExtractedThinking t s).1.toolCallIndexToContentBlockIndex =
      s.toolCallIndexToContentBlockIndex := by
  unfold handleExtractedThinking
  cases hI : s.isThinkingStarted <;> cases hT : s.hasTextContentStarted <;> simp [hI, hT]

/-- The text-block flag is untouched by `handleExtractedThinking` (the
source never resets it when a thinking block interrupts a text block). -/
theorem handleExtractedThinking_hasText (t : String) (s : StreamState) :
    (handleExtractedThinking t s).1.hasTextContentStarted = s.hasTextContentStarted := by
  unfold handleExtractedThinking
  cases hI : s.isThinkingStarted <;> cases hT : s.hasTextContentStarted <;> simp [hI, hT]

/-- The finish latch is untouched by `handleThinkingStage`. -/
theorem handleThinkingStage_hasFinished (er : ExtractResult) (s : StreamState) :
    (handleThinkingStage er s).1.hasFinished = s.hasFinished := by
  unfold handleThinkingStage
  cases er.thinking with
  | none => rfl
  | some t =>
    dsimp only
    split_ifs with h
    · exact handleExtractedThinking_hasFinished t s
    · rfl

/-- The start latch is untouched by `handleThinkingStage`. -/
theorem handleThinkingStage_hasStarted (er : ExtractResult) (s : StreamState) :
    (handleThinkingStage er s).1.hasStarted = s.hasStarted := by
  unfold handleThinkingStage
  cases er.thinking with
  | none => rfl
  | some t =>
    dsimp only
    split_ifs with h
    · exact handleExtractedThinking_hasStarted t s
    · rfl

/-- The tool-call index map is untouched by `handleThinkingStage`. -/
theorem handleThinkingStage_map (er : ExtractResult) (s : StreamState) :
    (handleThinkingStage er s).1.toolCallIndexToContentBlockIndex =
      s.toolCallIndexToContentBlockIndex := by
  unfold handleThinkingStage
  cases er.thinking with
  | none => rfl
  | some t =>
    dsimp only
    split_ifs with h
    · exact handleExtractedThinking_map t s
    · rfl

/-- The text-block flag is untouched by `handleThinkingStage`. -/
theorem handleThinkingStage_hasText (er : ExtractResult) (s : StreamState) :
    (handleThinkingStage er s).1.hasTextContentStarted = s.hasTextContentStarted := by
  unfold handleThinkingStage
  cases er.thinking with
  | none => rfl
  | some t =>
    dsimp only
    split_ifs with h
    · exact handleExtractedThinking_hasText t s
    · rfl

/-- The events of `handleThinkingStage` are body events. -/
theorem handleThinkingStage_body (er : ExtractResult) (s : StreamState) :
    (handleThinkingStage er s).2.all isBodyEvent = true := by
  unfold handleThinkingStage
  cases er.thinking with
  | none => rfl
  | some t =>
    dsimp only
    split_ifs with h
    · exact handleExtractedThinking_body t s
    · rfl

/-- The finish latch is untouched by `handleTextContentWithReasoning`. -/
theorem handleTextContentWithReasoning_hasFinished (t : String) (s : StreamState) :
    (handleTextContentWithReasoning t s).1.hasFinished = s.hasFinished := by
  simp only [handleTextContentWithReasoning]
  split_ifs with h
  · simp [handleRegularTextContent_hasFinished, handleThinkingStage_hasFinished]
  · simp [handleThinkingStage_hasFinished]

/-- The start latch is untouched by `handleTextContentWithReasoning`. -/
theorem handleTextContentWithReasoning_hasStarted (t : String) (s : StreamState) :
    (handleTextContentWithReasoning t s).1.hasStarted = s.hasStarted := by
  simp only [handleTextContentWithReasoning]
  split_ifs with h
  · simp [handleRegularTextContent_hasStarted, handleThinkingStage_hasStarted]
  · simp [handleThinkingStage_hasStarted]

/-- The tool-call index map is untouched by `handleTextContentWithReasoning`. -/
theorem handleTextContentWithReasoning_map (t : String) (s : StreamState) :
    (handleTextContentWithReasoning t s).1.toolCallIndexToContentBlockIndex =
      s.toolCallIndexToContentBlockIndex := by
  simp only [handleTextContentWithReasoning]
  split_ifs with h
  · simp [handleRegularTextContent_map, handleThinkingStage_map]
  · simp [handleThinkingStage_map]

/-- The text-block flag only ever rises in `handleTextContentWithReasoning`. -/
theorem handleTextContentWithReasoning_hasText (t : String) (s : StreamState)
    (h : s.hasTextContentStarted = true) :
    (handleTextContentWithReasoning t s).1.hasTextContentStarted = true := by
  simp only [handleTextContentWithReasoning]
  split_ifs with hr
  · simp [handleRegularTextContent_hasText, handleThinkingStage_hasText, h]
  · simp [handleThinkingStage_hasText, h]

/-- The events of `handleTextContentWithReasoning` are body events. -/
theorem handleTextContentWithReasoning_body (t : String) (s : StreamState) :
    (handleTextContentWithReasoning t s).2.all isBodyEvent = true := by
  simp only [handleTextContentWithReasoning]
  split_ifs with h
  · simp only [List.all_append, Bool.and_eq_true]
    exact ⟨handleThinkingStage_body _ _, handleRegularTextContent_body _ _⟩
  · exact handleThinkingStage_body _ _


/-- Flag frame of `toolCallOpenStage`: the lifecycle latches and the
text-block flag are untouched and only body events are emitted. -/
theorem toolCallOpenStage_hasFinished (s : StreamState) (tc : ToolCallDelta) :
    (toolCallOpenStage s tc).1.hasFinished = s.hasFinished := by
  simp only [toolCallOpenStage]
  split_ifs <;> (try rfl)
  all_goals split <;> (try split_ifs) <;> rfl

/-- The start latch is untouched by `toolCallOpenStage`. -/
theorem toolCallOpenStage_hasStarted (s : StreamState) (tc : ToolCallDelta) :
    (toolCallOpenStage s tc).1.hasStarted = s.hasStarted := by
  simp only [toolCallOpenStage]
  split_ifs <;> (try rfl)
  all_goals split <;> (try split_ifs) <;> rfl

/-- The text-block flag is untouched by `toolCallOpenStage`. -/
theorem toolCallOpenStage_hasText (s : StreamState) (tc : ToolCallDelta) :
    (toolCallOpenStage s tc).1.hasTextContentStarted = s.hasTextContentStarted := by
  simp only [toolCallOpenStage]
  split_ifs <;> (try rfl)
  all_goals split <;> (try split_ifs) <;> rfl

/-- The events of `toolCallOpenStage` are body events. -/
theorem toolCallOpenStage_body (s : StreamState) (tc : ToolCallDelta) :
    (toolCallOpenStage s tc).2.all isBodyEvent = true := by
  simp only [toolCallOpenStage]
  split_ifs <;> (try simp [isBodyEvent])
  all_goals split <;> (try split_ifs) <;> simp [isBodyEvent]

/-- The finish latch is untouched by `toolCallArgsStage`. -/
theorem toolCallArgsStage_hasFinished (idx : Nat) (tc : ToolCallDelta)
    (r : StreamState × List SSEEvent) :
    (toolCallArgsStage idx tc r).1.hasFinished = r.1.hasFinished := by
  simp only [toolCallArgsStage]
  split_ifs with hc
  · split <;> rfl
  · rfl

/-- The start latch is untouched by `toolCallArgsStage`. -/
theorem toolCallArgsStage_hasStarted (idx : Nat) (tc : ToolCallDelta)
    (r : StreamState × List SSEEvent) :
    (toolCallArgsStage idx tc r).1.hasStarted = r.1.hasStarted := by
  simp only [toolCallArgsStage]
  split_ifs with hc
  · split <;> rfl
  · rfl

/-- The text-block flag is untouched by `toolCallArgsStage`. -/
theorem toolCallArgsStage_hasText (idx : Nat) (tc : ToolCallDelta)
    (r : StreamState × List SSEEvent) :
    (toolCallArgsStage idx tc r).1.hasTextContentStarted = r.1.hasTextContentStarted := by
  simp only [toolCallArgsStage]
  split_ifs with hc
  · split <;> rfl
  · rfl

/-- The tool-call index map is untouched by `toolCallArgsStage`. -/
theorem toolCallArgsStage_map (idx : Nat) (tc : ToolCallDelta)
    (r : StreamState × List SSEEvent) :
    (toolCallArgsStage idx tc r).1.toolCallIndexToContentBlockIndex =
      r.1.toolCallIndexToContentBlockIndex := by
  simp only [toolCallArgsStage]
  split_ifs with hc
  · split <;> rfl
  · rfl

/-- The events appended by `toolCallArgsStage` beyond those of its input are
body events: if the input events all satisfy `isBodyEvent`, so do the
output events. -/
theorem toolCallArgsStage_body (idx : Nat) (tc : ToolCallDelta)
    (r : StreamState × List SSEEvent) (h : r.2.all isBodyEvent = true) :
    (toolCallArgsStage idx tc r).2.all isBodyEvent = true := by
  simp only [toolCallArgsStage]
  split_ifs with hc
  · split <;> simp_all [isBodyEvent]
  · exact h

/-- The finish latch is untouched by `processToolCallDelta`. -/
theorem processToolCallDelta_hasFinished (s : StreamState) (tc : ToolCallDelta) :
    (processToolCallDelta s tc).1.hasFinished = s.hasFinished := by
  unfold processToolCallDelta
  rw [toolCallArgsStage_hasFinished, toolCallOpenStage_hasFinished]

/-- The start latch is untouched by `processToolCallDelta`. -/
theorem processToolCallDelta_hasStarted (s : StreamState) (tc : ToolCallDelta) :
    (processToolCallDelta s tc).1.hasStarted = s.hasStarted := by
  unfold processToolCallDelta
  rw [toolCallArgsStage_hasStarted, toolCallOpenStage_hasStarted]

/-- The text-block flag is untouched by `processToolCallDelta`. -/
theorem processToolCallDelta_hasText (s : StreamState) (tc : ToolCallDelta) :
    (processToolCallDelta s tc).1.hasTextContentStarted = s.hasTextContentStarted := by
  unfold processToolCallDelta
  rw [toolCallArgsStage_hasText, toolCallOpenStage_hasText]

/-- The events of `processToolCallDelta` are body events. -/
theorem processToolCallDelta_body (s : StreamState) (tc : ToolCallDelta) :
    (processToolCallDelta s tc).2.all isBodyEvent = true := by
  unfold processToolCallDelta
  exact toolCallArgsStage_body _ _ _ (toolCallOpenStage_body s tc)

/-- The finish latch is untouched by the tool-call loop. -/
theorem handleToolCallsGo_hasFinished (tcs : List ToolCallDelta) :
    ∀ (s : StreamState) (processed : List Nat),
      (handleToolCallsGo s processed tcs).1.hasFinished = s.hasFinished := by
  induction tcs with
  | nil => intro s processed; rfl
  | cons tc rest ih =>
    intro s processed
    simp only [handleToolCallsGo]
    split_ifs with h
    · exact ih s processed
    · rw [ih, processToolCallDelta_hasFinished]

/-- The start latch is untouched by the tool-call loop. -/
theorem handleToolCallsGo_hasStarted (tcs : List ToolCallDelta) :
    ∀ (s : StreamState) (processed : List Nat),
      (handleToolCallsGo s processed tcs).1.hasStarted = s.hasStarted := by
  induction tcs with
  | nil => intro s processed; rfl
  | cons tc rest ih =>
    intro s processed
    simp only [handleToolCallsGo]
    split_ifs with h
    · exact ih s processed
    · rw [ih, processToolCallDelta_hasStarted]

/-- The text-block flag is untouched by the tool-call loop. -/
theorem handleToolCallsGo_hasText (tcs : List ToolCallDelta) :
    ∀ (s : StreamState) (processed : List Nat),
      (handleToolCallsGo s processed tcs).1.hasTextContentStarted = s.hasTextContentStarted := by
  induction tcs with
  | nil => intro s processed; rfl
  | cons tc rest ih =>
    intro s processed
    simp only [handleToolCallsGo]
    split_ifs with h
    · exact ih s processed
    · rw [ih, processToolCallDelta_hasText]

/-- The events of the tool-call loop are body events. -/
theorem handleToolCallsGo_body (tcs : List ToolCallDelta) :
    ∀ (s : StreamState) (processed : List Nat),
      (handleToolCallsGo s processed tcs).2.all isBodyEvent = true := by
  induction tcs with
  | nil => intro s processed; rfl
  | cons tc rest ih =>
    intro s processed
    simp only [handleToolCallsGo]
    split_ifs with h
    · exact ih s processed
    · simp only [List.all_append, Bool.and_eq_true]
      exact ⟨processToolCallDelta_body _ _, ih _ _⟩

/-- The finish latch is untouched by `handleToolCalls`. -/
theorem handleToolCalls_hasFinished (tcs : List ToolCallDelta) (s : StreamState) :
    (handleToolCalls tcs s).1.hasFinished = s.hasFinished := by
  unfold handleToolCalls
  rw [handleToolCallsGo_hasFinished]

/-- The start latch is untouched by `handleToolCalls`. -/
theorem handleToolCalls_hasStarted (tcs : List ToolCallDelta) (s : StreamState) :
    (handleToolCalls tcs s).1.hasStarted = s.hasStarted := by
  unfold handleToolCalls
  rw [handleToolCallsGo_hasStarted]

/-- The text-block flag is untouched by `handleToolCalls`. -/
theorem handleToolCalls_hasText (tcs : List ToolCallDelta) (s : StreamState) :
    (handleToolCalls tcs s).1.hasTextContentStarted = s.hasTextContentStarted := by
  unfold handleToolCalls
  rw [handleToolCallsGo_hasText]

/-- The events of `handleToolCalls` are body events. -/
theorem handleToolCalls_body (tcs : List ToolCallDelta) (s : StreamState) :
    (handleToolCalls tcs s).2.all isBodyEvent = true := by
  unfold handleToolCalls
  exact handleToolCallsGo_body _ _ _

/-- `handleFinishReason` latches the finish flag. -/
theorem handleFinishReason_hasFinished (fr : String) (u : Option ChunkUsage)
    (s : StreamState) : (handleFinishReason fr u s).1.hasFinished = true := rfl

/-- The events of `handleFinishReason` in closed form: the conditional
content-block close, then `message_delta` with the mapped stop reason and
defaulted usage counts, then `message_stop`. -/
theorem handleFinishReason_events (fr : String) (u : Option ChunkUsage)
    (s : StreamState) :
    (handleFinishReason fr u s).2 =
      (if s.hasTextContentStarted || s.toolCallChunks > 0 then
         [SSEEvent.contentBlockStop s.contentIndex]
       else []) ++
        [SSEEvent.messageDelta (stopReasonMapping fr)
           ((u.bind ChunkUsage.prompt_tokens).getD 0)
           ((u.bind ChunkUsage.completion_tokens).getD 0),
         SSEEvent.messageStop] := rfl

/-- The events of `handleFinishReason` are a body-event prefix followed by
the final `message_stop`. -/
theorem handleFinishReason_shape (fr : String) (u : Option ChunkUsage)
    (s : StreamState) :
    ∃ b, (handleFinishReason fr u s).2 = b ++ [SSEEvent.messageStop] ∧
      b.all isBodyEvent = true := by
  refine ⟨(if s.hasTextContentStarted || s.toolCallChunks > 0 then
       [SSEEvent.contentBlockStop s.contentIndex]
     else []) ++
      [SSEEvent.messageDelta (stopReasonMapping fr)
         ((u.bind ChunkUsage.prompt_tokens).getD 0)
         ((u.bind ChunkUsage.completion_tokens).getD 0)], ?_, ?_⟩
  · rw [handleFinishReason_events]
    simp
  · split_ifs <;> simp [isBodyEvent]

/-- The finish latch is untouched by `textStage`. -/
theorem textStage_hasFinished (choice : ChunkChoice) (s : StreamState) :
    (textStage choice s).1.hasFinished = s.hasFinished := by
  unfold textStage
  split_ifs with h
  · exact handleTextContentWithReasoning_hasFinished _ _
  · rfl

/-- The start latch is untouched by `textStage`. -/
theorem textStage_hasStarted (choice : ChunkChoice) (s : StreamState) :
    (textStage choice s).1.hasStarted = s.hasStarted := by
  unfold textStage
  split_ifs with h
  · exact handleTextContentWithReasoning_hasStarted _ _
  · rfl

/-- The tool-call index map is untouched by `textStage`. -/
theorem textStage_map (choice : ChunkChoice) (s : StreamState) :
    (textStage choice s).1.toolCallIndexToContentBlockIndex =
      s.toolCallIndexToContentBlockIndex := by
  unfold textStage
  split_ifs with h
  · exact handleTextContentWithReasoning_map _ _
  · rfl

/-- The events of `textStage` are body events. -/
theorem textStage_body (choice : ChunkChoice) (s : StreamState) :
    (textStage choice s).2.all isBodyEvent = true := by
  unfold textStage
  split_ifs with h
  · exact handleTextContentWithReasoning_body _ _
  · rfl

/-- The finish latch is untouched by `toolStage`. -/
theorem toolStage_hasFinished (choice : ChunkChoice) (s : StreamState) :
    (toolStage choice s).1.hasFinished = s.hasFinished := by
  unfold toolStage
  split
  · split_ifs with h
    · exact handleToolCalls_hasFinished _ _
    · rfl
  · rfl

/-- The start latch is untouched by `toolStage`. -/
theorem toolStage_hasStarted (choice : ChunkChoice) (s : StreamState) :
    (toolStage choice s).1.hasStarted = s.hasStarted := by
  unfold toolStage
  split
  · split_ifs with h
    · exact handleToolCalls_hasStarted _ _
    · rfl
  · rfl

/-- The events of `toolStage` are body events. -/
theorem toolStage_body (choice : ChunkChoice) (s : StreamState) :
    (toolStage choice s).2.all isBodyEvent = true := by
  unfold toolStage
  split
  · split_ifs with h
    · exact handleToolCalls_body _ _
    · rfl
  · rfl

/-- The finish flag after `finStage` is exactly "a truthy finish reason
arrived while not yet finished, or the stream was already finished". -/
theorem finStage_hasFinished (choice : ChunkChoice) (u : Option ChunkUsage)
    (s : StreamState) :
    (finStage choice u s).1.hasFinished =
      (s.hasFinished || truthyS choice.finish_reason) := by
  unfold finStage
  cases hF : s.hasFinished <;> cases hfr : truthyS choice.finish_reason <;>
    simp [hF, hfr, handleFinishReason]

/-- The start latch is untouched by `finStage`. -/
theorem finStage_hasStarted (choice : ChunkChoice) (u : Option ChunkUsage)
    (s : StreamState) :
    (finStage choice u s).1.hasStarted = s.hasStarted := by
  unfold finStage
  split_ifs with h
  · rfl
  · rfl

/-- The tool-call index map is untouched by `finStage`. -/
theorem finStage_map (choice : ChunkChoice) (u : Option ChunkUsage) (s : StreamState) :
    (finStage choice u s).1.toolCallIndexToContentBlockIndex =
      s.toolCallIndexToContentBlockIndex := by
  unfold finStage
  split_ifs with h
  · rfl
  · rfl

/-- The events of `finStage` are a body-event list followed by
`message_stop` exactly when the stage latches the finish flag, and empty
otherwise. -/
theorem finStage_shape (choice : ChunkChoice) (u : Option ChunkUsage)
    (s : StreamState) (hF : s.hasFinished = false) :
    ∃ b, b.all isBodyEvent = true ∧
      (finStage choice u s).2 =
        b ++ (if (finStage choice u s).1.hasFinished = true
              then [SSEEvent.messageStop] else []) := by
  rw [finStage_hasFinished, hF, Bool.false_or]
  unfold finStage
  rw [hF]
  cases hfr : truthyS choice.finish_reason with
  | false => exact ⟨[], rfl, rfl⟩
  | true =>
    simp only [Bool.not_false, Bool.and_true, if_true, if_pos]
    obtain ⟨b, hb, hall⟩ := handleFinishReason_shape (choice.finish_reason.getD "") u s
    exact ⟨b, hall, by simpa using hb⟩

/-- Shape of one choice step: body events wrapped around the accumulated
prefix, with `message_stop` appended exactly when the step latches the
finish flag; the start latch is untouched. -/
theorem chunkChoiceStage_shape (choice : ChunkChoice) (u : Option ChunkUsage)
    (r : StreamState × List SSEEvent) (hF : r.1.hasFinished = false) :
    ∃ b, b.all isBodyEvent = true ∧
      (chunkChoiceStage choice u r).1.hasStarted = r.1.hasStarted ∧
      (chunkChoiceStage choice u r).2 =
        r.2 ++ b ++ (if (chunkChoiceStage choice u r).1.hasFinished = true
                     then [SSEEvent.messageStop] else []) := by
  have h1 : (textStage choice r.1).1.hasFinished = false := by
    rw [textStage_hasFinished]; exact hF
  have h2 : (toolStage choice (textStage choice r.1).1).1.hasFinished = false := by
    rw [toolStage_hasFinished]; exact h1
  obtain ⟨b, hb, hev⟩ := finStage_shape choice u _ h2
  refine ⟨(textStage choice r.1).2 ++ (toolStage choice (textStage choice r.1).1).2 ++ b,
    ?_, ?_, ?_⟩
  · simp [List.all_append, textStage_body, toolStage_body, hb]
  · simp only [chunkChoiceStage]
    rw [finStage_hasStarted, toolStage_hasStarted, textStage_hasStarted]
  · simp only [chunkChoiceStage]
    rw [hev]
    simp [List.append_assoc]


/-- The finish latch is untouched by `startStage`. -/
theorem startStage_hasFinished (c : OpenAIStreamChunk) (s : StreamState) :
    (startStage c s).1.hasFinished = s.hasFinished := by
  unfold startStage
  cases hm : truthyS c.model <;> simp only [hm, if_true, if_false,
    Bool.false_eq_true] <;> split_ifs <;> rfl

/-- After `startStage` on an unfinished state the start latch is set. -/
theorem startStage_hasStarted (c : OpenAIStreamChunk) (s : StreamState)
    (hF : s.hasFinished = false) : (startStage c s).1.hasStarted = true := by
  unfold startStage
  cases hm : truthyS c.model <;> cases hs : s.hasStarted <;>
    simp [hm, hs, hF]

/-- The tool-call index map is untouched by `startStage`. -/
theorem startStage_map (c : OpenAIStreamChunk) (s : StreamState) :
    (startStage c s).1.toolCallIndexToContentBlockIndex =
      s.toolCallIndexToContentBlockIndex := by
  unfold startStage
  cases hm : truthyS c.model <;> simp only [hm, if_true, if_false,
    Bool.false_eq_true] <;> split_ifs <;> rfl

/-- The text-block flag is untouched by `startStage`. -/
theorem startStage_hasText (c : OpenAIStreamChunk) (s : StreamState) :
    (startStage c s).1.hasTextContentStarted = s.hasTextContentStarted := by
  unfold startStage
  cases hm : truthyS c.model <;> simp only [hm, if_true, if_false,
    Bool.false_eq_true] <;> split_ifs <;> rfl

/-- Events of `startStage` on an unfinished state: empty when the stream
already started, exactly one `message_start` otherwise. -/
theorem startStage_events (c : OpenAIStreamChunk) (s : StreamState)
    (hF : s.hasFinished = false) :
    (s.hasStarted = true ∧ (startStage c s).2 = []) ∨
    (s.hasStarted = false ∧
      ∃ mid mdl, (startStage c s).2 = [SSEEvent.messageStart mid mdl]) := by
  unfold startStage
  cases hs : s.hasStarted with
  | true =>
    left
    refine ⟨rfl, ?_⟩
    cases hm : truthyS c.model <;> simp [hm, hs, hF]
  | false =>
    right
    refine ⟨rfl, ?_⟩
    cases hm : truthyS c.model <;> simp [hm, hs, hF]

/-- Shape of one full chunk step from an unfinished state: either the
malformed-chunk error event alone (latching nothing), or an optional
`message_start` (mandatory when the stream has not yet started), then body
events, then a final `message_stop` exactly when the chunk finished the
stream. -/
theorem processOpenAIChunk_shape (c : OpenAIStreamChunk) (s : StreamState)
    (hF : s.hasFinished = false) :
    ((processOpenAIChunk c s).2 = [SSEEvent.errorEvent "api_error" "Invalid chunk format"] ∧
     (processOpenAIChunk c s).1.hasStarted = s.hasStarted ∧
     (processOpenAIChunk c s).1.hasFinished = false) ∨
    ((processOpenAIChunk c s).1.hasStarted = true ∧
     ∃ pre b, ((s.hasStarted = true ∧ pre = []) ∨
               (s.hasStarted = false ∧ ∃ mid mdl, pre = [SSEEvent.messageStart mid mdl])) ∧
       b.all isBodyEvent = true ∧
       (processOpenAIChunk c s).2 =
         pre ++ b ++ (if (processOpenAIChunk c s).1.hasFinished = true
                      then [SSEEvent.messageStop] else [])) := by
  by_cases hv : (c.choices.isNone && !truthyS c.model && !truthyS c.id) = true
  · left
    refine ⟨?_, ?_, ?_⟩ <;> simp [processOpenAIChunk, hv, hF]
  · right
    have hs0F : ({ s with totalChunks := s.totalChunks + 1 } : StreamState).hasFinished = false := hF
    cases hch : c.choices.bind List.head? with
    | none =>
      have hpe : processOpenAIChunk c s =
          startStage c { s with totalChunks := s.totalChunks + 1 } := by
        simp [processOpenAIChunk, hv, hch]
      rw [hpe]
      refine ⟨startStage_hasStarted c _ hs0F, ?_⟩
      rcases startStage_events c _ hs0F with ⟨hs, hnil⟩ | ⟨hs, mid, mdl, hone⟩
      · exact ⟨[], [], Or.inl ⟨hs, rfl⟩, rfl,
          by rw [hnil, startStage_hasFinished, hs0F]; rfl⟩
      · exact ⟨[SSEEvent.messageStart mid mdl], [], Or.inr ⟨hs, mid, mdl, rfl⟩, rfl,
          by rw [hone, startStage_hasFinished, hs0F]; simp⟩
    | some choice =>
      have hpe : processOpenAIChunk c s =
          chunkChoiceStage choice c.usage
            (startStage c { s with totalChunks := s.totalChunks + 1 }) := by
        simp [processOpenAIChunk, hv, hch]
      have hrF : (startStage c { s with totalChunks := s.totalChunks + 1 }).1.hasFinished = false := by
        rw [startStage_hasFinished]; exact hs0F
      obtain ⟨b, hb, hstart, hev⟩ :=
        chunkChoiceStage_shape choice c.usage
          (startStage c { s with totalChunks := s.totalChunks + 1 }) hrF
      rw [hpe]
      refine ⟨by rw [hstart]; exact startStage_hasStarted c _ hs0F, ?_⟩
      refine ⟨(startStage c { s with totalChunks := s.totalChunks + 1 }).2, b, ?_, hb, hev⟩
      rcases startStage_events c _ hs0F with ⟨hs, hnil⟩ | ⟨hs, mid, mdl, hone⟩
      · exact Or.inl ⟨hs, hnil⟩
      · exact Or.inr ⟨hs, mid, mdl, hone⟩

/-- Well-formedness of the event tail after `message_start`: no second
`message_start`, and `message_stop`, when present, is the final event. -/
def postStartOk : List SSEEvent → Bool
  | [] => true
  | SSEEvent.messageStart _ _ :: _ => false
  | SSEEvent.messageStop :: rest => rest.isEmpty
  | _ :: rest => postStartOk rest

/-- Well-formedness of a full emitted event sequence: before the first
`message_start` only error events may occur (in particular no content-block
event and no `message_stop`), `message_start` occurs at most once, and
`message_stop` — possible only after `message_start` — is the last event
when emitted. -/
def preStartOk : List SSEEvent → Bool
  | [] => true
  | SSEEvent.errorEvent _ _ :: rest => preStartOk rest
  | SSEEvent.messageStart _ _ :: rest => postStartOk rest
  | _ => false

/-- Body events pass through `postStartOk`. -/
theorem postStartOk_append_body (b : List SSEEvent) (rest : List SSEEvent)
    (hb : b.all isBodyEvent = true) :
    postStartOk (b ++ rest) = postStartOk rest := by
  induction b with
  | nil => rfl
  | cons e b ih =>
    simp only [List.all_cons, Bool.and_eq_true] at hb
    cases e <;> simp_all [postStartOk, isBodyEvent]

/-- A body-event list followed by a final `message_stop` is well-formed. -/
theorem postStartOk_body_stop (b : List SSEEvent) (hb : b.all isBodyEvent = true) :
    postStartOk (b ++ [SSEEvent.messageStop]) = true := by
  rw [postStartOk_append_body b _ hb]
  rfl

/-- After a started, unfinished state, every continuation of the run emits
a well-formed tail. -/
theorem runLines_postStart (ls : List StreamLine) :
    ∀ s : StreamState, s.hasStarted = true → s.hasFinished = false →
      postStartOk (runLines s ls).2 = true := by
  induction ls with
  | nil => intro s h1 h2; rfl
  | cons l ls ih =>
    intro s h1 h2
    rw [runLines_cons]
    simp only [h2, Bool.false_eq_true, if_false]
    cases l with
    | data c =>
      rcases processOpenAIChunk_shape c s h2 with
        ⟨he, hst, hfin⟩ | ⟨hstart, pre, b, hpre, hb, hev⟩
      · simp only [processLine, he]
        have := ih (processOpenAIChunk c s).1 (hst.trans h1) hfin
        simpa [postStartOk] using this
      · rcases hpre with ⟨hs, hpre⟩ | ⟨hs, _, _, _⟩
        · subst hpre
          simp only [processLine, hev, List.nil_append]
          by_cases hfin : (processOpenAIChunk c s).1.hasFinished = true
          · rw [runLines_finished _ _ hfin]
            simp only [hfin, if_true, List.append_nil]
            exact postStartOk_body_stop b hb
          · simp only [Bool.not_eq_true] at hfin
            simp only [hfin, Bool.false_eq_true, if_false, List.append_nil]
            rw [postStartOk_append_body b _ hb]
            exact ih _ hstart hfin
        · rw [h1] at hs; cases hs
    | garbage => simpa [processLine] using ih s h1 h2
    | doneMarker => simpa [processLine] using ih s h1 h2
    | nonData => simpa [processLine] using ih s h1 h2

/-- From a fresh (not started, not finished) state, every run emits a
well-formed event sequence. -/
theorem runLines_preStart (ls : List StreamLine) :
    ∀ s : StreamState, s.hasStarted = false → s.hasFinished = false →
      preStartOk (runLines s ls).2 = true := by
  induction ls with
  | nil => intro s h1 h2; rfl
  | cons l ls ih =>
    intro s h1 h2
    rw [runLines_cons]
    simp only [h2, Bool.false_eq_true, if_false]
    cases l with
    | data c =>
      rcases processOpenAIChunk_shape c s h2 with
        ⟨he, hst, hfin⟩ | ⟨hstart, pre, b, hpre, hb, hev⟩
      · simp only [processLine, he]
        have := ih (processOpenAIChunk c s).1 (hst.trans h1) hfin
        simpa [preStartOk] using this
      · rcases hpre with ⟨hs, _⟩ | ⟨hs, mid, mdl, hpre⟩
        · rw [h1] at hs; cases hs
        · subst hpre
          simp only [processLine, hev]
          by_cases hfin : (processOpenAIChunk c s).1.hasFinished = true
          · rw [runLines_finished _ _ hfin]
            simp only [hfin, if_true, List.append_nil, List.cons_append, List.nil_append]
            show postStartOk (b ++ [SSEEvent.messageStop]) = true
            exact postStartOk_body_stop b hb
          · simp only [Bool.not_eq_true] at hfin
            simp only [hfin, Bool.false_eq_true, if_false, List.append_nil,
              List.cons_append, List.nil_append]
            show postStartOk (b ++ (runLines (processOpenAIChunk c s).1 ls).2) = true
            rw [postStartOk_append_body b _ hb]
            exact runLines_postStart ls _ hstart hfin
    | garbage => simpa [processLine] using ih s h1 h2
    | doneMarker => simpa [processLine] using ih s h1 h2
    | nonData => simpa [processLine] using ih s h1 h2

/-- C1 (amended): for every streaming input, the emitted event sequence is
envelope-well-formed: only error events may precede the (at most one)
`message_start`; no content-block event occurs before `message_start`; and
`message_stop` — emitted at most once, only after `message_start` — is the
last event of the stream when it is emitted at all. -/
theorem c1_envelope_wellformed (now : Nat) (lines : List StreamLine) :
    preStartOk (convertOpenAIStreamToAnthropic now lines) = true :=
  runLines_preStart lines (initState now) rfl rfl

/-- C1 counterexample: when the first chunk is the malformed shape (no
choices, no model, no id), the first emitted SSE event is the error event,
not `message_start`, and the last emitted event is a text delta, not
`message_stop` — the claim's "first is message_start, last is message_stop"
fails on this stream. -/
theorem c1_error_before_start_counterexample :
    convertOpenAIStreamToAnthropic 7
        [StreamLine.data invalidChunk, StreamLine.data (mkTextChunk "hi")] =
      [SSEEvent.errorEvent "api_error" "Invalid chunk format",
       SSEEvent.messageStart "msg_7" "unknown",
       SSEEvent.contentBlockStart 0 (ContentBlock.text ""),
       SSEEvent.contentBlockDelta 0 (Delta.textDelta "hi")] := by
  decide

/-- C6: a chunk whose first choice carries a (truthy) finish reason latches
the stream: the resulting state is finished, every later line of the stream
is ignored (no further events of any kind, even for content-bearing or
tool-call-bearing chunks), and the chunk's own events end by closing the
content block when one was produced, then `message_delta` with the mapped
stop reason and usage counts (absent counts defaulting to zero), then
`message_stop`. -/
theorem c6_finish_reason_latch (s : StreamState) (c : OpenAIStreamChunk)
    (choice : ChunkChoice) (rest : List ChunkChoice) (fr : String)
    (hF : s.hasFinished = false)
    (hc : c.choices = some (choice :: rest))
    (hfr : choice.finish_reason = some fr) (hne : fr ≠ "") :
    (processOpenAIChunk c s).1.hasFinished = true ∧
    (∀ post, runLines s (StreamLine.data c :: post) = processOpenAIChunk c s) ∧
    (∃ (pre : List SSEEvent) (s4 : StreamState), (processOpenAIChunk c s).2 =
        pre ++
          ((if s4.hasTextContentStarted || s4.toolCallChunks > 0 then
              [SSEEvent.contentBlockStop s4.contentIndex] else []) ++
           [SSEEvent.messageDelta (stopReasonMapping fr)
              ((c.usage.bind ChunkUsage.prompt_tokens).getD 0)
              ((c.usage.bind ChunkUsage.completion_tokens).getD 0),
            SSEEvent.messageStop])) := by
  have hpe : processOpenAIChunk c s =
      chunkChoiceStage choice c.usage
        (startStage c { s with totalChunks := s.totalChunks + 1 }) := by
    simp [processOpenAIChunk, hc]
  have hs4F : (toolStage choice (textStage choice
      (startStage c { s with totalChunks := s.totalChunks + 1 }).1).1).1.hasFinished = false := by
    rw [toolStage_hasFinished, textStage_hasFinished, startStage_hasFinished]
    exact hF
  have htr : truthyS choice.finish_reason = true := by
    rw [hfr]; simpa [truthyS] using hne
  have hfin : finStage choice c.usage (toolStage choice (textStage choice
      (startStage c { s with totalChunks := s.totalChunks + 1 }).1).1).1 =
      handleFinishReason fr c.usage (toolStage choice (textStage choice
        (startStage c { s with totalChunks := s.totalChunks + 1 }).1).1).1 := by
    unfold finStage
    rw [htr, hs4F, hfr]
    rfl
  have hDone : (processOpenAIChunk c s).1.hasFinished = true := by
    rw [hpe]
    show (finStage choice c.usage _).1.hasFinished = true
    rw [hfin]
    exact handleFinishReason_hasFinished _ _ _
  refine ⟨hDone, ?_, ?_⟩
  · intro post
    rw [runLines_cons]
    simp only [hF, Bool.false_eq_true, if_false, processLine]
    rw [runLines_finished _ _ hDone]
    simp
  · refine ⟨(startStage c { s with totalChunks := s.totalChunks + 1 }).2 ++
      (textStage choice (startStage c { s with totalChunks := s.totalChunks + 1 }).1).2 ++
      (toolStage choice (textStage choice
        (startStage c { s with totalChunks := s.totalChunks + 1 }).1).1).2,
      (toolStage choice (textStage choice
        (startStage c { s with totalChunks := s.totalChunks + 1 }).1).1).1, ?_⟩
    rw [hpe]
    show (startStage c { s with totalChunks := s.totalChunks + 1 }).2 ++ _ ++ _ ++
        (finStage choice c.usage _).2 = _
    rw [hfin, handleFinishReason_events]

/-- The concrete finish chunk used by the closed C6 witness. -/
def c6chunk : OpenAIStreamChunk :=
  mkFinishChunk "length" (some { prompt_tokens := some 3, completion_tokens := none })

/-- Closed witness for `c6_finish_reason_latch` at a concrete finish chunk. -/
theorem c6_finish_reason_latch_witness :
    (processOpenAIChunk c6chunk (initState 2)).1.hasFinished = true ∧
    (∀ post, runLines (initState 2) (StreamLine.data c6chunk :: post) =
      processOpenAIChunk c6chunk (initState 2)) ∧
    (∃ (pre : List SSEEvent) (s4 : StreamState),
      (processOpenAIChunk c6chunk (initState 2)).2 =
        pre ++
          ((if s4.hasTextContentStarted || s4.toolCallChunks > 0 then
              [SSEEvent.contentBlockStop s4.contentIndex] else []) ++
           [SSEEvent.messageDelta (stopReasonMapping "length")
              ((c6chunk.usage.bind ChunkUsage.prompt_tokens).getD 0)
              ((c6chunk.usage.bind ChunkUsage.completion_tokens).getD 0),
            SSEEvent.messageStop])) :=
  c6_finish_reason_latch (initState 2) c6chunk _ [] "length" rfl rfl rfl (by decide)

/-- The assigned target content-block indices in order of first appearance
of each source tool-call index. -/
def mapVals (s : StreamState) : List Nat :=
  s.toolCallIndexToContentBlockIndex.map Prod.snd

/-- Invariant of the source-index-to-target-index map: the assigned target
indices are strictly increasing in insertion order, and the last assigned
index is below the map size plus one when a text block is open (the next
assignment is `size + (text open ? 1 : 0)`, so this bound makes it strictly
larger than every assigned index). -/
def MapInv (s : StreamState) : Prop :=
  List.Chain' (· < ·) (mapVals s) ∧
  ∀ v, (mapVals s).getLast? = some v →
    v < s.toolCallIndexToContentBlockIndex.length +
      (if s.hasTextContentStarted = true then 1 else 0)

/-- `MapInv` transfers along equal maps and a monotone text flag. -/
theorem MapInv.mono (s s' : StreamState) (h : MapInv s)
    (hm : s'.toolCallIndexToContentBlockIndex = s.toolCallIndexToContentBlockIndex)
    (hf : s.hasTextContentStarted = true → s'.hasTextContentStarted = true) :
    MapInv s' := by
  obtain ⟨hc, hl⟩ := h
  constructor
  · simpa [mapVals, hm] using hc
  · intro v hv
    rw [mapVals, hm] at hv
    have := hl v hv
    rw [hm]
    cases hsf : s.hasTextContentStarted with
    | true => rw [hf hsf]; simpa [hsf] using this
    | false =>
      simp only [hsf, Bool.false_eq_true, if_false, Nat.add_zero] at this
      split_ifs <;> omega

/-- Setting a key absent from an association list appends the new entry. -/
theorem alSet_of_not_mem {α : Type} (m : List (Nat × α)) (k : Nat) (v : α)
    (h : alGet m k = none) : alSet m k v = m ++ [(k, v)] := by
  induction m with
  | nil => rfl
  | cons e m ih =>
    obtain ⟨k0, v0⟩ := e
    by_cases hk : k0 = k
    · simp [alGet, hk] at h
    · simp only [alGet, hk, if_neg, if_false] at h
      simp [alSet, hk, ih h]

/-- `toolCallOpenStage` only appends to the index map. -/
theorem toolCallOpenStage_map_extend (s : StreamState) (tc : ToolCallDelta) :
    ∃ ext, (toolCallOpenStage s tc).1.toolCallIndexToContentBlockIndex =
      s.toolCallIndexToContentBlockIndex ++ ext := by
  simp only [toolCallOpenStage]
  by_cases hNone : (alGet s.toolCallIndexToContentBlockIndex (tc.index.getD 0)).isNone = true
  · have hget : alGet s.toolCallIndexToContentBlockIndex (tc.index.getD 0) = none :=
      Option.isNone_iff_eq_none.mp hNone
    simp only [hNone, if_true]
    cases hT : s.hasTextContentStarted with
    | true =>
      refine ⟨[(tc.index.getD 0, s.toolCallIndexToContentBlockIndex.length + 1)], ?_⟩
      simp only [hT, if_true]
      split_ifs with h0 <;> simp [alSet_of_not_mem _ _ _ hget]
    | false =>
      refine ⟨[(tc.index.getD 0, s.toolCallIndexToContentBlockIndex.length)], ?_⟩
      simp only [hT, Bool.false_eq_true, if_false]
      split_ifs with h0 <;> simp [alSet_of_not_mem _ _ _ hget]
  · simp only [Bool.not_eq_true] at hNone
    simp only [hNone, Bool.false_eq_true, if_false]
    refine ⟨[], ?_⟩
    rw [List.append_nil]
    split_ifs with hid
    · split
      · split_ifs <;> rfl
      · rfl
    · rfl

/-- Characterization of the index map after `toolCallOpenStage`: unchanged,
or (for a fresh source index) extended by exactly the new assignment
`size + (text open ? 1 : 0)`. -/
theorem toolCallOpenStage_map_char (s : StreamState) (tc : ToolCallDelta) :
    (toolCallOpenStage s tc).1.toolCallIndexToContentBlockIndex =
      s.toolCallIndexToContentBlockIndex ∨
    (toolCallOpenStage s tc).1.toolCallIndexToContentBlockIndex =
      s.toolCallIndexToContentBlockIndex ++
        [(tc.index.getD 0, s.toolCallIndexToContentBlockIndex.length +
           (if s.hasTextContentStarted = true then 1 else 0))] := by
  simp only [toolCallOpenStage]
  by_cases hNone : (alGet s.toolCallIndexToContentBlockIndex (tc.index.getD 0)).isNone = true
  · have hget : alGet s.toolCallIndexToContentBlockIndex (tc.index.getD 0) = none :=
      Option.isNone_iff_eq_none.mp hNone
    right
    simp only [hNone, if_true]
    cases hT : s.hasTextContentStarted with
    | true =>
      simp only [hT, if_true]
      split_ifs with h0 <;> simp [alSet_of_not_mem _ _ _ hget]
    | false =>
      simp only [hT, Bool.false_eq_true, if_false]
      split_ifs with h0 <;> simp [alSet_of_not_mem _ _ _ hget]
  · simp only [Bool.not_eq_true] at hNone
    left
    simp only [hNone, Bool.false_eq_true, if_false]
    split_ifs with hid
    · split
      · split_ifs <;> rfl
      · rfl
    · rfl

/-- `MapInv` is preserved by appending the next assignment. -/
theorem MapInv.append_assign (s s' : StreamState) (h : MapInv s) (idx : Nat)
    (hm : s'.toolCallIndexToContentBlockIndex =
      s.toolCallIndexToContentBlockIndex ++
        [(idx, s.toolCallIndexToContentBlockIndex.length +
           (if s.hasTextContentStarted = true then 1 else 0))])
    (hf : s'.hasTextContentStarted = s.hasTextContentStarted) :
    MapInv s' := by
  obtain ⟨hc, hl⟩ := h
  constructor
  · rw [mapVals, hm, List.map_append, List.chain'_append]
    refine ⟨hc, List.chain'_singleton _, ?_⟩
    intro x hx y hy
    simp only [List.map_cons, List.map_nil, List.head?_cons, Option.mem_def,
      Option.some.injEq] at hy
    subst hy
    exact hl x (Option.mem_def.mp hx)
  · intro w hw
    rw [mapVals, hm, List.map_append] at hw
    simp only [List.map_cons, List.map_nil] at hw
    have hw' : w = s.toolCallIndexToContentBlockIndex.length +
        (if s.hasTextContentStarted = true then 1 else 0) := by
      have : (List.map Prod.snd s.toolCallIndexToContentBlockIndex ++
          [s.toolCallIndexToContentBlockIndex.length +
            (if s.hasTextContentStarted = true then 1 else 0)]).getLast? =
          some (s.toolCallIndexToContentBlockIndex.length +
            (if s.hasTextContentStarted = true then 1 else 0)) := by
        simp
      rw [this] at hw
      exact (Option.some.inj hw).symm
    subst hw'
    rw [hm, hf, List.length_append]
    split_ifs <;> simp

/-- The text-block flag only ever rises in `textStage`. -/
theorem textStage_hasText_mono (choice : ChunkChoice) (s : StreamState)
    (h : s.hasTextContentStarted = true) :
    (textStage choice s).1.hasTextContentStarted = true := by
  unfold textStage
  split_ifs with hc
  · exact handleTextContentWithReasoning_hasText _ _ h
  · exact h

/-- The text-block flag is untouched by `toolStage`. -/
theorem toolStage_hasText (choice : ChunkChoice) (s : StreamState) :
    (toolStage choice s).1.hasTextContentStarted = s.hasTextContentStarted := by
  unfold toolStage
  split
  · split_ifs with h
    · exact handleToolCalls_hasText _ _
    · rfl
  · rfl

/-- The text-block flag is untouched by `finStage`. -/
theorem finStage_hasText (choice : ChunkChoice) (u : Option ChunkUsage)
    (s : StreamState) :
    (finStage choice u s).1.hasTextContentStarted = s.hasTextContentStarted := by
  unfold finStage
  split_ifs with h
  · rfl
  · rfl

/-- Characterization of the index map after `processToolCallDelta` (the
argument stage never touches it). -/
theorem processToolCallDelta_map_char (s : StreamState) (tc : ToolCallDelta) :
    (processToolCallDelta s tc).1.toolCallIndexToContentBlockIndex =
      s.toolCallIndexToContentBlockIndex ∨
    (processToolCallDelta s tc).1.toolCallIndexToContentBlockIndex =
      s.toolCallIndexToContentBlockIndex ++
        [(tc.index.getD 0, s.toolCallIndexToContentBlockIndex.length +
           (if s.hasTextContentStarted = true then 1 else 0))] := by
  unfold processToolCallDelta
  rw [toolCallArgsStage_map]
  exact toolCallOpenStage_map_char s tc

/-- `MapInv` is preserved by `processToolCallDelta`. -/
theorem processToolCallDelta_inv (s : StreamState) (tc : ToolCallDelta)
    (h : MapInv s) : MapInv (processToolCallDelta s tc).1 := by
  rcases processToolCallDelta_map_char s tc with hm | hm
  · exact MapInv.mono s _ h hm (fun ht => (processToolCallDelta_hasText s tc).trans ht)
  · exact MapInv.append_assign s _ h _ hm (processToolCallDelta_hasText s tc)

/-- `MapInv` is preserved by the tool-call loop. -/
theorem handleToolCallsGo_inv (tcs : List ToolCallDelta) :
    ∀ (s : StreamState) (processed : List Nat), MapInv s →
      MapInv (handleToolCallsGo s processed tcs).1 := by
  induction tcs with
  | nil => intro s processed h; exact h
  | cons tc rest ih =>
    intro s processed h
    simp only [handleToolCallsGo]
    split_ifs with hmem
    · exact ih s processed h
    · exact ih _ _ (processToolCallDelta_inv s tc h)

/-- The tool-call loop only appends to the index map. -/
theorem handleToolCallsGo_map_extend (tcs : List ToolCallDelta) :
    ∀ (s : StreamState) (processed : List Nat),
      ∃ ext, (handleToolCallsGo s processed tcs).1.toolCallIndexToContentBlockIndex =
        s.toolCallIndexToContentBlockIndex ++ ext := by
  induction tcs with
  | nil => intro s processed; exact ⟨[], by simp [handleToolCallsGo]⟩
  | cons tc rest ih =>
    intro s processed
    simp only [handleToolCallsGo]
    split_ifs with hmem
    · exact ih s processed
    · obtain ⟨e2, he2⟩ := ih (processToolCallDelta s tc).1 (tc.index.getD 0 :: processed)
      rcases processToolCallDelta_map_char s tc with hm | hm
      · exact ⟨e2, by rw [he2, hm]⟩
      · exact ⟨[(tc.index.getD 0, s.toolCallIndexToContentBlockIndex.length +
            (if s.hasTextContentStarted = true then 1 else 0))] ++ e2,
          by rw [he2, hm, List.append_assoc]⟩

/-- `MapInv` is preserved by `handleToolCalls`. -/
theorem handleToolCalls_inv (tcs : List ToolCallDelta) (s : StreamState)
    (h : MapInv s) : MapInv (handleToolCalls tcs s).1 := by
  unfold handleToolCalls
  refine handleToolCallsGo_inv tcs _ [] ?_
  exact MapInv.mono s _ h rfl (fun ht => ht)

/-- `handleToolCalls` only appends to the index map. -/
theorem handleToolCalls_map_extend (tcs : List ToolCallDelta) (s : StreamState) :
    ∃ ext, (handleToolCalls tcs s).1.toolCallIndexToContentBlockIndex =
      s.toolCallIndexToContentBlockIndex ++ ext := by
  unfold handleToolCalls
  exact handleToolCallsGo_map_extend tcs _ []

/-- `MapInv` is preserved by `textStage`. -/
theorem textStage_inv (choice : ChunkChoice) (s : StreamState) (h : MapInv s) :
    MapInv (textStage choice s).1 :=
  MapInv.mono s _ h (textStage_map choice s) (textStage_hasText_mono choice s)

/-- `MapInv` is preserved by `toolStage`. -/
theorem toolStage_inv (choice : ChunkChoice) (s : StreamState) (h : MapInv s) :
    MapInv (toolStage choice s).1 := by
  unfold toolStage
  split
  · split_ifs with hf
    · exact handleToolCalls_inv _ s h
    · exact h
  · exact h

/-- `toolStage` only appends to the index map. -/
theorem toolStage_map_extend (choice : ChunkChoice) (s : StreamState) :
    ∃ ext, (toolStage choice s).1.toolCallIndexToContentBlockIndex =
      s.toolCallIndexToContentBlockIndex ++ ext := by
  unfold toolStage
  split
  · split_ifs with hf
    · exact handleToolCalls_map_extend _ s
    · exact ⟨[], by simp⟩
  · exact ⟨[], by simp⟩

/-- `MapInv` is preserved by `finStage`. -/
theorem finStage_inv (choice : ChunkChoice) (u : Option ChunkUsage)
    (s : StreamState) (h : MapInv s) : MapInv (finStage choice u s).1 :=
  MapInv.mono s _ h (finStage_map choice u s)
    (fun ht => (finStage_hasText choice u s).trans ht)

/-- `MapInv` is preserved by `startStage`. -/
theorem startStage_inv (c : OpenAIStreamChunk) (s : StreamState) (h : MapInv s) :
    MapInv (startStage c s).1 :=
  MapInv.mono s _ h (startStage_map c s)
    (fun ht => (startStage_hasText c s).trans ht)

/-- `MapInv` is preserved by one chunk step. -/
theorem processOpenAIChunk_inv (c : OpenAIStreamChunk) (s : StreamState)
    (h : MapInv s) : MapInv (processOpenAIChunk c s).1 := by
  have hstep : MapInv ({ s with totalChunks := s.totalChunks + 1 } : StreamState) :=
    MapInv.mono s _ h rfl (fun ht => ht)
  simp only [processOpenAIChunk]
  split_ifs with hv
  · exact hstep
  · cases hch : c.choices.bind List.head? with
    | none => exact startStage_inv c _ hstep
    | some choice =>
      simp only [chunkChoiceStage]
      exact finStage_inv _ _ _ (toolStage_inv _ _ (textStage_inv _ _
        (startStage_inv c _ hstep)))

/-- One chunk step only appends to the index map. -/
theorem processOpenAIChunk_map_extend (c : OpenAIStreamChunk) (s : StreamState) :
    ∃ ext, (processOpenAIChunk c s).1.toolCallIndexToContentBlockIndex =
      s.toolCallIndexToContentBlockIndex ++ ext := by
  simp only [processOpenAIChunk]
  split_ifs with hv
  · exact ⟨[], by simp⟩
  · cases hch : c.choices.bind List.head? with
    | none => exact ⟨[], by rw [startStage_map]; simp⟩
    | some choice =>
      simp only [chunkChoiceStage]
      obtain ⟨ext, hext⟩ := toolStage_map_extend choice
        (textStage choice (startStage c { s with totalChunks := s.totalChunks + 1 }).1).1
      refine ⟨ext, ?_⟩
      rw [finStage_map, hext, textStage_map, startStage_map]

/-- `MapInv` is preserved by one line. -/
theorem processLine_inv (s : StreamState) (l : StreamLine) (h : MapInv s) :
    MapInv (processLine s l).1 := by
  cases l with
  | data c => exact processOpenAIChunk_inv c s h
  | garbage => exact h
  | doneMarker => exact h
  | nonData => exact h

/-- One line only appends to the index map. -/
theorem processLine_map_extend (s : StreamState) (l : StreamLine) :
    ∃ ext, (processLine s l).1.toolCallIndexToContentBlockIndex =
      s.toolCallIndexToContentBlockIndex ++ ext := by
  cases l with
  | data c => exact processOpenAIChunk_map_extend c s
  | garbage => exact ⟨[], by simp [processLine]⟩
  | doneMarker => exact ⟨[], by simp [processLine]⟩
  | nonData => exact ⟨[], by simp [processLine]⟩

/-- `MapInv` is preserved by the whole run. -/
theorem runLines_inv (ls : List StreamLine) :
    ∀ s : StreamState, MapInv s → MapInv (runLines s ls).1 := by
  induction ls with
  | nil => intro s h; exact h
  | cons l ls ih =>
    intro s h
    rw [runLines_cons]
    split_ifs with hf
    · exact h
    · exact ih _ (processLine_inv s l h)

/-- The run only appends to the index map. -/
theorem runLines_map_extend (ls : List StreamLine) :
    ∀ s : StreamState,
      ∃ ext, (runLines s ls).1.toolCallIndexToContentBlockIndex =
        s.toolCallIndexToContentBlockIndex ++ ext := by
  induction ls with
  | nil => intro s; exact ⟨[], by simp [runLines]⟩
  | cons l ls ih =>
    intro s
    rw [runLines_cons]
    split_ifs with hf
    · exact ⟨[], by simp⟩
    · obtain ⟨e1, he1⟩ := processLine_map_extend s l
      obtain ⟨e2, he2⟩ := ih (processLine s l).1
      exact ⟨e1 ++ e2, by rw [he2, he1, List.append_assoc]⟩

/-- `runLines` distributes over list append. -/
theorem runLines_append (xs ys : List StreamLine) :
    ∀ s : StreamState,
      runLines s (xs ++ ys) =
        ((runLines (runLines s xs).1 ys).1,
         (runLines s xs).2 ++ (runLines (runLines s xs).1 ys).2) := by
  induction xs with
  | nil => intro s; simp [runLines]
  | cons x xs ih =>
    intro s
    by_cases hf : s.hasFinished = true
    · rw [List.cons_append, runLines_finished _ _ hf, runLines_finished _ _ hf,
        runLines_finished _ _ hf]
      simp
    · simp only [Bool.not_eq_true] at hf
      rw [List.cons_append, runLines_cons, runLines_cons]
      simp only [hf, Bool.false_eq_true, if_false]
      rw [ih (processLine s x).1]
      simp [List.append_assoc]

/-- C5: across every streaming input, the source-index-to-target-index map
only ever grows at the end (entries, once set, are never modified or
removed for the remainder of the stream), and the assigned target
content-block indices, in order of first appearance, are strictly
increasing — hence pairwise distinct, so no index is ever reused for a
different tool call. -/
theorem c5_tool_call_index_map (now : Nat) (ls more : List StreamLine) :
    (∃ ext, (runLines (initState now) (ls ++ more)).1.toolCallIndexToContentBlockIndex =
       (runLines (initState now) ls).1.toolCallIndexToContentBlockIndex ++ ext) ∧
    List.Chain' (· < ·) (mapVals (runLines (initState now) (ls ++ more)).1) ∧
    (mapVals (runLines (initState now) (ls ++ more)).1).Nodup := by
  have hInv : MapInv (initState now) := by
    constructor
    · exact List.chain'_nil
    · intro v hv
      simp [mapVals, initState] at hv
  have h2 := runLines_inv (ls ++ more) (initState now) hInv
  refine ⟨?_, h2.1, ?_⟩
  · rw [runLines_append ls more (initState now)]
    exact runLines_map_extend more (runLines (initState now) ls).1
  · have hpair : List.Pairwise (· < ·) (mapVals (runLines (initState now) (ls ++ more)).1) :=
      List.chain'_iff_pairwise.mp h2.1
    exact hpair.imp (fun h => Nat.ne_of_lt h)

/-- Membership in the non-empty-content guard of the transcoded message:
an element of the tool-use block list is in the final content. -/
theorem mem_content_if {J : Type} (x : OutBlock J) (A B C : List (OutBlock J))
    (h : x ∈ B) :
    x ∈ (if (A ++ B ++ C).isEmpty = true then [OutBlock.text ""]
         else A ++ B ++ C) := by
  have hx : x ∈ A ++ B ++ C :=
    List.mem_append.mpr (Or.inl (List.mem_append.mpr (Or.inr h)))
  rw [if_neg]
  · exact hx
  · rw [List.isEmpty_iff]
    exact List.ne_nil_of_mem hx

/-- C7: the non-streaming response transcoder fails if and only if the
response's choices array is absent or empty; in particular a response with
at least one choice whose tool-call argument string fails JSON parsing does
not throw, and the corresponding `tool_use` block carries the graceful
fallback input built from the raw argument string. -/
theorem c7_no_choices_iff_throw {J : Type} (parse : String → Option J)
    (now : Nat) (resp : OpenAIResponse) :
    ((transformOpenAIToClaude parse now resp).isOk = true ↔ resp.choices ≠ []) ∧
    (∀ choice rest tcs tc a, resp.choices = choice :: rest →
      choice.message.tool_calls = some tcs → tc ∈ tcs →
      tc.arguments = some a → a ≠ "" → parse a = none →
      ∃ m, transformOpenAIToClaude parse now resp = Except.ok m ∧
        OutBlock.toolUse tc.id tc.name (ToolInput.textFallback a) ∈ m.content) := by
  constructor
  · cases hc : resp.choices with
    | nil => simp [transformOpenAIToClaude, hc, Except.isOk, Except.toBool]
    | cons choice rest => simp [transformOpenAIToClaude, hc, Except.isOk, Except.toBool]
  · intro choice rest tcs tc a hc htcs htc harg hne hparse
    have htcs_ne : tcs ≠ [] := List.ne_nil_of_mem htc
    simp only [transformOpenAIToClaude, hc, htcs, ne_eq, htcs_ne, not_false_eq_true,
      if_true]
    refine ⟨_, rfl, ?_⟩
    dsimp only
    have hmem : OutBlock.toolUse tc.id tc.name (ToolInput.textFallback a) ∈
        tcs.map (fun tc : RespToolCall =>
          OutBlock.toolUse tc.id tc.name
            (match parse (if tc.arguments.getD "" = "" then "\x7b\x7d"
                          else tc.arguments.getD "") with
             | some j => ToolInput.json j
             | none => ToolInput.textFallback (tc.arguments.getD ""))) :=
      List.mem_map.mpr ⟨tc, htc,
        by rw [harg]; simp only [Option.getD_some, if_neg hne, hparse]⟩
    exact mem_content_if (OutBlock.toolUse tc.id tc.name (ToolInput.textFallback a))
      (if truthyS choice.message.content = true then
        [OutBlock.text (choice.message.content.getD "")] else [])
      (tcs.map (fun tc : RespToolCall =>
        OutBlock.toolUse tc.id tc.name
          (match parse (if tc.arguments.getD "" = "" then "\x7b\x7d"
                        else tc.arguments.getD "") with
           | some j => ToolInput.json j
           | none => ToolInput.textFallback (tc.arguments.getD ""))))
      (match choice.message.urlCitations with
       | some cits =>
         [OutBlock.serverToolUse ("srvtoolu_" ++ toString now) "web_search",
          OutBlock.webSearchToolResult ("srvtoolu_" ++ toString now) cits]
       | none => []) hmem

/-- The concrete response used by the closed C7 witness: one choice whose
tool call carries an argument string that is not valid JSON. -/
def c7resp : OpenAIResponse :=
  { id := some "r1", model := "m",
    choices := [{ message := { content := some "hello",
                               tool_calls := some [{ id := "t1", name := "fn",
                                                     arguments := some "not json" }],
                               urlCitations := none },
                  finish_reason := some "stop" }],
    usage := none }

/-- The host-language JSON parser used by the closed C7 witness: it rejects
every string. -/
def c7parse : String → Option Unit := fun _ => none

/-- Closed witness for `c7_no_choices_iff_throw` at a concrete response. -/
theorem c7_no_choices_iff_throw_witness :
    ((transformOpenAIToClaude c7parse 0 c7resp).isOk = true ↔ c7resp.choices ≠ []) ∧
    (∃ m, transformOpenAIToClaude c7parse 0 c7resp = Except.ok m ∧
      OutBlock.toolUse "t1" "fn" (ToolInput.textFallback "not json") ∈ m.content) :=
  ⟨(c7_no_choices_iff_throw c7parse 0 c7resp).1,
   (c7_no_choices_iff_throw c7parse 0 c7resp).2 _ [] _
     { id := "t1", name := "fn", arguments := some "not json" } "not json"
     rfl rfl (by decide) rfl (by decide) rfl⟩

/-- All messages buffered in the pending-results queue are tool-role
messages. -/
def qToolOnly (q : List (String × List OMsg)) : Prop :=
  ∀ p ∈ q, ∀ r ∈ p.2, r.role = "tool"

/-- `qPush` preserves `qToolOnly` when pushing a tool-role message. -/
theorem qPush_toolOnly (q : List (String × List OMsg)) (k : String) (m : OMsg)
    (hq : qToolOnly q) (hm : m.role = "tool") : qToolOnly (qPush q k m) := by
  induction q with
  | nil =>
    intro p hp r hr
    simp only [qPush, List.mem_singleton] at hp
    subst hp
    simp only [List.mem_singleton] at hr
    subst hr
    exact hm
  | cons e q ih =>
    obtain ⟨k0, v0⟩ := e
    intro p hp r hr
    simp only [qPush] at hp
    split_ifs at hp with hk
    · rcases List.mem_cons.mp hp with hp | hp
      · subst hp
        rcases List.mem_append.mp hr with hr | hr
        · exact hq (k0, v0) (List.mem_cons_self _ _) r hr
        · simp only [List.mem_singleton] at hr; subst hr; exact hm
      · exact hq p (List.mem_cons_of_mem _ hp) r hr
    · rcases List.mem_cons.mp hp with hp | hp
      · subst hp
        exact hq (k0, v0) (List.mem_cons_self _ _) r hr
      · exact ih (fun p hp => hq p (List.mem_cons_of_mem _ hp)) p hp r hr

/-- The first collection pass over one block array yields only tool-role
messages. -/
theorem collectBlocks_toolOnly (bs : List CBlock) :
    ∀ q, qToolOnly q → qToolOnly (collectBlocks q bs) := by
  induction bs with
  | nil => intro q hq; exact hq
  | cons b bs ih =>
    intro q hq
    cases b with
    | toolResult tid c =>
      simp only [collectBlocks]
      split_ifs with ht
      · exact ih _ (qPush_toolOnly q tid (toolResultMsg c tid) hq rfl)
      · exact ih _ hq
    | text t => exact ih _ hq
    | image s => exact ih _ hq
    | toolUse i n inp => exact ih _ hq
    | other => exact ih _ hq

/-- The whole first pass yields only tool-role messages. -/
theorem collectToolResponses_toolOnly (msgs : List CMsg) :
    qToolOnly (collectToolResponses msgs) := by
  unfold collectToolResponses
  have general : ∀ q, qToolOnly q → qToolOnly (msgs.foldl (fun q m =>
      match m.content with
      | CContent.blocks bs => collectBlocks q bs
      | _ => q) q) := by
    induction msgs with
    | nil => intro q hq; exact hq
    | cons m ms ih =>
      intro q hq
      simp only [List.foldl_cons]
      cases hc : m.content with
      | blocks bs => exact ih _ (collectBlocks_toolOnly bs q hq)
      | str s => exact ih _ hq
  exact general [] (fun p hp => absurd hp (List.not_mem_nil _))

/-- `qDelete` preserves `qToolOnly`. -/
theorem qDelete_toolOnly (q : List (String × List OMsg)) (k : String)
    (hq : qToolOnly q) : qToolOnly (qDelete q k) := by
  induction q with
  | nil => intro p hp; exact absurd hp (List.not_mem_nil _)
  | cons e q ih =>
    obtain ⟨k0, v0⟩ := e
    intro p hp r hr
    simp only [qDelete] at hp
    split_ifs at hp with hk
    · exact hq p (List.mem_cons_of_mem _ hp) r hr
    · rcases List.mem_cons.mp hp with hp | hp
      · subst hp
        exact hq (k0, v0) (List.mem_cons_self _ _) r hr
      · exact ih (fun p hp => hq p (List.mem_cons_of_mem _ hp)) p hp r hr

/-- A queue entry read by `qGet` contains only tool-role messages when the
queue is tool-only. -/
theorem qGet_toolOnly (k : String) :
    ∀ (q : List (String × List OMsg)) (rs : List OMsg), qToolOnly q →
      qGet q k = some rs → ∀ r ∈ rs, r.role = "tool" := by
  intro q
  induction q with
  | nil => intro rs hq h; cases h
  | cons e q ih =>
    obtain ⟨k0, v0⟩ := e
    intro rs hq h
    simp only [qGet] at h
    split_ifs at h with hk
    · injection h with h'
      subst h'
      exact hq (k0, v0) (List.mem_cons_self _ _)
    · exact ih rs (fun p hp => hq p (List.mem_cons_of_mem _ hp)) h

/-- Every message flushed by `flushResults` from a tool-only queue is a
tool-role message. -/
theorem flushResults_toolOnly (ids : List String) :
    ∀ q, qToolOnly q → ∀ r ∈ (flushResults q ids).1, r.role = "tool" := by
  induction ids with
  | nil => intro q hq r hr; exact absurd hr (List.not_mem_nil _)
  | cons id ids ih =>
    intro q hq r hr
    simp only [flushResults] at hr
    cases hg : qGet q id with
    | some rs =>
      rw [hg] at hr
      simp only at hr
      rcases List.mem_append.mp hr with hr | hr
      · exact qGet_toolOnly id q rs hq hg r hr
      · exact ih (qDelete q id) (qDelete_toolOnly q id hq) r hr
    | none =>
      rw [hg] at hr
      exact ih q hq r hr

/-- The second pass distributes over list append, threading the queue. -/
theorem processMessages_append (xs ys : List CMsg) :
    ∀ q, processMessages q (xs ++ ys) =
      ((processMessages q xs).1 ++ (processMessages (processMessages q xs).2 ys).1,
       (processMessages (processMessages q xs).2 ys).2) := by
  induction xs with
  | nil => intro q; simp [processMessages]
  | cons x xs ih =>
    intro q
    simp only [List.cons_append, processMessages, List.append_eq]
    rw [ih (processMessage x q).2]
    simp [List.append_assoc]

/-- A block array without `tool_result` blocks contributes nothing to the
first pass. -/
theorem collectBlocks_no_toolResult (bs : List CBlock)
    (h : ∀ tid cnt, CBlock.toolResult tid cnt ∉ bs) :
    ∀ q, collectBlocks q bs = q := by
  induction bs with
  | nil => intro q; rfl
  | cons b bs ih =>
    intro q
    have htail : ∀ tid cnt, CBlock.toolResult tid cnt ∉ bs := by
      intro tid cnt hmem
      exact h tid cnt (List.mem_cons_of_mem _ hmem)
    cases b with
    | toolResult tid c => exact absurd (List.mem_cons_self _ _) (h tid c)
    | text t => exact ih htail q
    | image s => exact ih htail q
    | toolUse i n inp => exact ih htail q
    | other => exact ih htail q

/-- The first pass distributes over list append. -/
theorem collectFold_append (xs ys : List CMsg) :
    ∀ q : List (String × List OMsg),
      (xs ++ ys).foldl (fun q m =>
        match m.content with
        | CContent.blocks bs => collectBlocks q bs
        | _ => q) q =
      ys.foldl (fun q m =>
        match m.content with
        | CContent.blocks bs => collectBlocks q bs
        | _ => q) (xs.foldl (fun q m =>
          match m.content with
          | CContent.blocks bs => collectBlocks q bs
          | _ => q) q) := by
  intro q
  exact List.foldl_append _ _ _ _

/-- C10: in the message walk, a user message whose block array contains no
text block with nonempty text and no image block with a source contributes
no message at all (and, when it also holds no `tool_result` blocks, removing
it leaves the whole transcoded request unchanged), whereas an assistant
message with a block array always contributes exactly one assistant-role
message — first in its segment, followed only by tool-role result
messages — whose content is null when no nonempty text blocks are present. -/
theorem c10_user_dropped_assistant_kept (m : CMsg) (bs : List CBlock)
    (hc : m.content = CContent.blocks bs) :
    (m.role = "user" → bs.filter isUserPart = [] →
      ∀ q, processMessage m q = ([], q)) ∧
    (m.role = "assistant" → ∀ q, qToolOnly q →
      (processMessage m q).1.head? = some (assistantMessageOut bs) ∧
      (∀ r ∈ (processMessage m q).1.tail, r.role = "tool") ∧
      ((processMessage m q).1.filter (fun r => r.role == "assistant")).length = 1 ∧
      (bs.filter isTextPart = [] → (assistantMessageOut bs).content = none)) ∧
    (m.role = "user" → bs.filter isUserPart = [] →
      (∀ tid cnt, CBlock.toolResult tid cnt ∉ bs) →
      ∀ sys pre post, transformClaudeToOpenAI sys (pre ++ m :: post) =
        transformClaudeToOpenAI sys (pre ++ post)) := by
  have h1 : m.role = "user" → bs.filter isUserPart = [] →
      ∀ q, processMessage m q = ([], q) := by
    intro hrole hfilter q
    simp [processMessage, hc, hrole, userMessageOut, hfilter]
  refine ⟨h1, ?_, ?_⟩
  · intro hrole q hq
    have hpm : processMessage m q =
        (assistantMessageOut bs :: (flushResults q (toolUseIds bs)).1,
         (flushResults q (toolUseIds bs)).2) := by
      simp [processMessage, hc, hrole]
    rw [hpm]
    refine ⟨rfl, ?_, ?_, ?_⟩
    · intro r hr
      exact flushResults_toolOnly (toolUseIds bs) q hq r hr
    · simp only [List.filter_cons]
      have hhead : ((assistantMessageOut bs).role == "assistant") = true := by
        simp [assistantMessageOut]
      rw [if_pos hhead]
      have htail : ((flushResults q (toolUseIds bs)).1.filter
          (fun r => r.role == "assistant")) = [] := by
        rw [List.filter_eq_nil_iff]
        intro r hr
        have := flushResults_toolOnly (toolUseIds bs) q hq r hr
        simp [this]
      rw [htail]
      rfl
    · intro htext
      simp [assistantMessageOut, htext]
  · intro hrole hfilter hnores sys pre post
    unfold transformClaudeToOpenAI
    dsimp only
    have hcol : collectToolResponses (pre ++ m :: post) =
        collectToolResponses (pre ++ post) := by
      unfold collectToolResponses
      rw [collectFold_append pre (m :: post), collectFold_append pre post]
      simp only [List.foldl_cons]
      have hstep : (match m.content with
          | CContent.blocks bs => collectBlocks (List.foldl (fun q mm =>
              match mm.content with
              | CContent.blocks bs => collectBlocks q bs
              | _ => q) [] pre) bs
          | _ => List.foldl (fun q mm =>
              match mm.content with
              | CContent.blocks bs => collectBlocks q bs
              | _ => q) [] pre) =
          List.foldl (fun q mm =>
            match mm.content with
            | CContent.blocks bs => collectBlocks q bs
            | _ => q) [] pre := by
        rw [hc]
        exact collectBlocks_no_toolResult bs hnores _
      rw [hstep]
    rw [hcol]
    have hpm : processMessages (collectToolResponses (pre ++ post)) (pre ++ m :: post) =
        processMessages (collectToolResponses (pre ++ post)) (pre ++ post) := by
      rw [processMessages_append pre (m :: post), processMessages_append pre post]
      simp only [processMessages]
      rw [h1 hrole hfilter]
      simp
    rw [hpm]

/-- Concrete user message with no qualifying block for the C10 witness. -/
def c10user : CMsg :=
  { role := "user", content := CContent.blocks [CBlock.other, CBlock.text ""] }

/-- Concrete assistant message with only a tool call for the C10 witness. -/
def c10asst : CMsg :=
  { role := "assistant", content := CContent.blocks [CBlock.toolUse "t1" "f" "\x7b\x7d"] }

/-- Closed witness for `c10_user_dropped_assistant_kept` at concrete
messages. -/
theorem c10_user_dropped_assistant_kept_witness :
    (∀ q, processMessage c10user q = ([], q)) ∧
    ((processMessage c10asst []).1.head? =
        some (assistantMessageOut [CBlock.toolUse "t1" "f" "\x7b\x7d"]) ∧
      (∀ r ∈ (processMessage c10asst []).1.tail, r.role = "tool") ∧
      ((processMessage c10asst []).1.filter (fun r => r.role == "assistant")).length = 1 ∧
      (([CBlock.toolUse "t1" "f" "\x7b\x7d"] : List CBlock).filter isTextPart = [] →
        (assistantMessageOut [CBlock.toolUse "t1" "f" "\x7b\x7d"]).content = none)) ∧
    (∀ sys pre post, transformClaudeToOpenAI sys (pre ++ c10user :: post) =
      transformClaudeToOpenAI sys (pre ++ post)) := by
  obtain ⟨h1, _, h3⟩ := c10_user_dropped_assistant_kept c10user
    [CBlock.other, CBlock.text ""] rfl
  obtain ⟨_, h2, _⟩ := c10_user_dropped_assistant_kept c10asst
    [CBlock.toolUse "t1" "f" "\x7b\x7d"] rfl
  refine ⟨h1 rfl (by decide), ?_, ?_⟩
  · exact h2 rfl [] (fun p hp => absurd hp (List.not_mem_nil _))
  · refine h3 rfl (by decide) ?_
    intro tid cnt h
    simp [List.mem_cons] at h

/-- Tool-call ids contributed by one message of the history (assistant
messages with block arrays only). -/
def assistantToolIds (m : CMsg) : List String :=
  match m.content with
  | CContent.blocks bs => if m.role = "assistant" then toolUseIds bs else []
  | _ => []

/-- All tool-call ids of the conversation in order. -/
def allToolIds (msgs : List CMsg) : List String :=
  msgs.flatMap assistantToolIds

/-- The tool-role result messages one block array contributes for one id. -/
def blockResults (t : String) (bs : List CBlock) : List OMsg :=
  bs.filterMap (fun b =>
    match b with
    | CBlock.toolResult tid cnt =>
      if tid = t ∧ tid ≠ "" then some (toolResultMsg cnt tid) else none
    | _ => none)

/-- The tool-role result messages buffered for one id, in conversation
order: one per `tool_result` block with that (truthy) `tool_use_id`. -/
def resultMsgsFor (msgs : List CMsg) (t : String) : List OMsg :=
  msgs.flatMap (fun m =>
    match m.content with
    | CContent.blocks bs => blockResults t bs
    | _ => [])

/-- `qDelete` of one key preserves lookups of every other key. -/
theorem qGet_qDelete_ne (k t : String) (hne : t ≠ k) :
    ∀ q : List (String × List OMsg), qGet (qDelete q k) t = qGet q t := by
  intro q
  induction q with
  | nil => rfl
  | cons e q ih =>
    obtain ⟨k0, v0⟩ := e
    simp only [qDelete, qGet]
    split_ifs with h1 h2 h3
    · subst h1; exact absurd h2.symm hne
    · rfl
    · simp [qGet, h3]
    · simp [qGet, h3, ih]

/-- `qPush` under one key preserves lookups of every other key. -/
theorem qGet_qPush_ne (k t : String) (m : OMsg) (hne : t ≠ k) :
    ∀ q : List (String × List OMsg), qGet (qPush q k m) t = qGet q t := by
  intro q
  induction q with
  | nil => simp [qPush, qGet, Ne.symm hne]
  | cons e q ih =>
    obtain ⟨k0, v0⟩ := e
    simp only [qPush]
    split_ifs with h1
    · subst h1
      simp [qGet, Ne.symm hne]
    · simp only [qGet]
      split_ifs with h2
      · rfl
      · exact ih

/-- `qPush` appends the pushed message at the end of its key's buffer. -/
theorem qGet_qPush_self (k : String) (m : OMsg) :
    ∀ q : List (String × List OMsg),
      qGet (qPush q k m) k = some ((qGet q k).getD [] ++ [m]) := by
  intro q
  induction q with
  | nil => simp [qPush, qGet]
  | cons e q ih =>
    obtain ⟨k0, v0⟩ := e
    simp only [qPush]
    split_ifs with h1
    · subst h1
      simp [qGet]
    · simp only [qGet, h1, if_false]
      exact ih

/-- `flushResults` leaves the buffers of unflushed ids untouched. -/
theorem flushResults_qGet_ne (ids : List String) :
    ∀ (q : List (String × List OMsg)) (t : String), t ∉ ids →
      qGet (flushResults q ids).2 t = qGet q t := by
  induction ids with
  | nil => intro q t ht; rfl
  | cons id ids ih =>
    intro q t ht
    have ht1 : t ≠ id := fun h => ht (h ▸ List.mem_cons_self _ _)
    have ht2 : t ∉ ids := fun h => ht (List.mem_cons_of_mem _ h)
    simp only [flushResults]
    cases hg : qGet q id with
    | some rs =>
      simp only
      rw [ih (qDelete q id) t ht2, qGet_qDelete_ne id t ht1]
    | none =>
      simp only
      exact ih q t ht2

/-- Congruence for `flatMap` under pointwise agreement on members. -/
theorem flatMap_congr_mem {α β : Type} (l : List α) (f g : α → List β)
    (h : ∀ x ∈ l, f x = g x) : l.flatMap f = l.flatMap g := by
  induction l with
  | nil => rfl
  | cons x l ih =>
    simp only [List.flatMap_cons]
    rw [h x (List.mem_cons_self _ _), ih (fun y hy => h y (List.mem_cons_of_mem _ hy))]

/-- With pairwise-distinct ids, `flushResults` returns exactly the
concatenation of the ids' buffers, in id order. -/
theorem flushResults_eq_flatMap (ids : List String) :
    ∀ q, ids.Nodup →
      (flushResults q ids).1 = ids.flatMap (fun i => (qGet q i).getD []) := by
  induction ids with
  | nil => intro q hn; rfl
  | cons id ids ih =>
    intro q hn
    have hid : id ∉ ids := (List.nodup_cons.mp hn).1
    have hn' : ids.Nodup := (List.nodup_cons.mp hn).2
    simp only [flushResults, List.flatMap_cons]
    cases hg : qGet q id with
    | some rs =>
      simp only [hg, Option.getD_some]
      rw [ih (qDelete q id) hn']
      congr 1
      exact flatMap_congr_mem ids _ _ (fun i hi =>
        by rw [qGet_qDelete_ne id i (fun h => hid (h ▸ hi)) q])
    | none =>
      simp only [hg, Option.getD_none, List.nil_append]
      exact ih q hn'

/-- The second-pass step for one message leaves buffers of ids outside that
message's tool calls untouched. -/
theorem processMessage_qGet_ne (m : CMsg) (q : List (String × List OMsg))
    (t : String) (ht : t ∉ assistantToolIds m) :
    qGet (processMessage m q).2 t = qGet q t := by
  unfold processMessage
  cases hc : m.content with
  | str s => rfl
  | blocks bs =>
    by_cases hu : m.role = "user"
    · simp [hu]
    · by_cases ha : m.role = "assistant"
      · simp only [hu, if_false, ha, if_true]
        have ht' : t ∉ toolUseIds bs := by
          intro hmem
          exact ht (by simp [assistantToolIds, hc, ha, hmem])
        exact flushResults_qGet_ne (toolUseIds bs) q t ht'
      · simp [hu, ha]

/-- The whole second pass leaves buffers of ids never claimed by any
assistant tool call untouched. -/
theorem processMessages_qGet_ne (ms : List CMsg) :
    ∀ (q : List (String × List OMsg)) (t : String), t ∉ allToolIds ms →
      qGet (processMessages q ms).2 t = qGet q t := by
  induction ms with
  | nil => intro q t ht; rfl
  | cons m ms ih =>
    intro q t ht
    simp only [allToolIds, List.flatMap_cons, List.mem_append, not_or] at ht
    simp only [processMessages]
    rw [ih (processMessage m q).2 t ht.2, processMessage_qGet_ne m q t ht.1]

/-- A successful `qGet` exhibits the queue entry. -/
theorem qGet_mem (t : String) (rs : List OMsg) :
    ∀ q : List (String × List OMsg), qGet q t = some rs → (t, rs) ∈ q := by
  intro q
  induction q with
  | nil => intro h; cases h
  | cons e q ih =>
    obtain ⟨k0, v0⟩ := e
    intro h
    simp only [qGet] at h
    split_ifs at h with hk
    · injection h with h'
      subst h'
      subst hk
      exact List.mem_cons_self _ _
    · exact List.mem_cons_of_mem _ (ih h)

/-- One collection step over a block array appends exactly that array's
results for every id. -/
theorem collectBlocks_qGet (t : String) (bs : List CBlock) :
    ∀ q, (qGet (collectBlocks q bs) t).getD [] =
      (qGet q t).getD [] ++ blockResults t bs := by
  induction bs with
  | nil => intro q; simp [collectBlocks, blockResults]
  | cons b bs ih =>
    intro q
    cases b with
    | toolResult tid cnt =>
      by_cases hne : tid = ""
      · subst hne
        have h1 : collectBlocks q (CBlock.toolResult "" cnt :: bs) = collectBlocks q bs := by
          simp [collectBlocks]
        have h2 : blockResults t (CBlock.toolResult "" cnt :: bs) = blockResults t bs := by
          simp [blockResults]
        rw [h1, h2, ih q]
      · have h1 : collectBlocks q (CBlock.toolResult tid cnt :: bs) =
            collectBlocks (qPush q tid (toolResultMsg cnt tid)) bs := by
          simp [collectBlocks, hne]
        by_cases heq : tid = t
        · subst heq
          have h2 : blockResults tid (CBlock.toolResult tid cnt :: bs) =
              toolResultMsg cnt tid :: blockResults tid bs := by
            simp [blockResults, hne]
          rw [h1, h2, ih (qPush q tid (toolResultMsg cnt tid)),
            qGet_qPush_self tid (toolResultMsg cnt tid) q]
          simp [List.append_assoc]
        · have h2 : blockResults t (CBlock.toolResult tid cnt :: bs) = blockResults t bs := by
            simp [blockResults, heq]
          rw [h1, h2, ih (qPush q tid (toolResultMsg cnt tid)),
            qGet_qPush_ne tid t (toolResultMsg cnt tid) (fun h => heq h.symm) q]
    | text s => simpa [collectBlocks, blockResults] using ih q
    | image s => simpa [collectBlocks, blockResults] using ih q
    | toolUse i n inp => simpa [collectBlocks, blockResults] using ih q
    | other => simpa [collectBlocks, blockResults] using ih q

/-- The first pass over a history, started from any queue, appends each
message's results for every id. -/
theorem collectFold_qGet (t : String) (msgs : List CMsg) :
    ∀ q, (qGet (msgs.foldl (fun q m =>
        match m.content with
        | CContent.blocks bs => collectBlocks q bs
        | _ => q) q) t).getD [] =
      (qGet q t).getD [] ++ resultMsgsFor msgs t := by
  induction msgs with
  | nil => intro q; simp [resultMsgsFor]
  | cons m msgs ih =>
    intro q
    simp only [List.foldl_cons]
    cases hc : m.content with
    | str s =>
      have hr : resultMsgsFor (m :: msgs) t = resultMsgsFor msgs t := by
        simp [resultMsgsFor, List.flatMap_cons, hc]
      rw [hr]
      dsimp only
      exact ih q
    | blocks bs =>
      have hr : resultMsgsFor (m :: msgs) t = blockResults t bs ++ resultMsgsFor msgs t := by
        simp [resultMsgsFor, List.flatMap_cons, hc]
      rw [hr]
      dsimp only
      rw [ih (collectBlocks q bs), collectBlocks_qGet t bs q, List.append_assoc]

/-- The first pass buffers, for every id, exactly the conversation's result
messages for that id, in order. -/
theorem collectToolResponses_qGet (t : String) (msgs : List CMsg) :
    (qGet (collectToolResponses msgs) t).getD [] = resultMsgsFor msgs t := by
  have h := collectFold_qGet t msgs []
  simpa [collectToolResponses, qGet] using h

/-- Equation of the second pass at a cons cell, in projection form. -/
theorem processMessages_cons (q : List (String × List OMsg)) (m : CMsg)
    (ms : List CMsg) :
    processMessages q (m :: ms) =
      ((processMessage m q).1 ++ (processMessages (processMessage m q).2 ms).1,
       (processMessages (processMessage m q).2 ms).2) := by
  simp only [processMessages]

/-- The walk's assistant branch, in projection form. -/
theorem processMessage_assistant (m : CMsg) (bs : List CBlock)
    (hrole : m.role = "assistant") (hcont : m.content = CContent.blocks bs)
    (q : List (String × List OMsg)) :
    processMessage m q =
      (assistantMessageOut bs :: (flushResults q (toolUseIds bs)).1,
       (flushResults q (toolUseIds bs)).2) := by
  simp [processMessage, hcont, hrole]

/-- Every buffered message of the pending queue appears among the leftover
messages appended at the end. -/
theorem leftover_of_qGet (q : List (String × List OMsg)) (t : String)
    (rs : List OMsg) (h : qGet q t = some rs) : ∀ r ∈ rs, r ∈ leftoverMsgs q := by
  intro r hr
  have hmem := qGet_mem t rs q h
  unfold leftoverMsgs
  exact List.mem_flatMap.mpr ⟨(t, rs), hmem, hr⟩

/-- C3: in a history whose tool-call ids are pairwise distinct, the
transcoded output places, immediately after each assistant message, exactly
the conversation's buffered result messages for that message's tool calls,
in the order the calls appear in the message; every result whose id matches
no tool call survives into the leftover segment that the transcoder appends
at the very end of the output. -/
theorem c3_tool_result_placement (sys : Option SystemPrompt)
    (pre post : List CMsg) (m : CMsg) (bs : List CBlock)
    (hrole : m.role = "assistant") (hcont : m.content = CContent.blocks bs)
    (hnodup : (allToolIds (pre ++ m :: post)).Nodup) :
    (∃ A B, transformClaudeToOpenAI sys (pre ++ m :: post) =
        A ++ (assistantMessageOut bs ::
          (toolUseIds bs).flatMap (fun i => resultMsgsFor (pre ++ m :: post) i)) ++ B) ∧
    (∀ t, t ∉ allToolIds (pre ++ m :: post) →
      ∀ r ∈ resultMsgsFor (pre ++ m :: post) t,
        r ∈ leftoverMsgs (processMessages
          (collectToolResponses (pre ++ m :: post)) (pre ++ m :: post)).2) ∧
    transformClaudeToOpenAI sys (pre ++ m :: post) =
      (systemMessages sys ++
        (processMessages (collectToolResponses (pre ++ m :: post)) (pre ++ m :: post)).1) ++
      leftoverMsgs (processMessages
        (collectToolResponses (pre ++ m :: post)) (pre ++ m :: post)).2 := by
  have hT : transformClaudeToOpenAI sys (pre ++ m :: post) =
      systemMessages sys ++
        (processMessages (collectToolResponses (pre ++ m :: post)) (pre ++ m :: post)).1 ++
      leftoverMsgs (processMessages
        (collectToolResponses (pre ++ m :: post)) (pre ++ m :: post)).2 := by
    simp [transformClaudeToOpenAI]
  have hAT : assistantToolIds m = toolUseIds bs := by
    simp [assistantToolIds, hcont, hrole]
  have hsplit : allToolIds (pre ++ m :: post) =
      allToolIds pre ++ (toolUseIds bs ++ allToolIds post) := by
    simp [allToolIds, List.flatMap_append, List.flatMap_cons, hAT]
  have hnd := hnodup
  rw [hsplit] at hnd
  obtain ⟨hnpre, hnrest, hdisj⟩ := List.nodup_append.mp hnd
  obtain ⟨hnids, hnpost, hdisj2⟩ := List.nodup_append.mp hnrest
  have hids_pre : ∀ i ∈ toolUseIds bs, i ∉ allToolIds pre := by
    intro i hi hmem
    exact hdisj hmem (List.mem_append_left _ hi)
  have hflush : (flushResults
      (processMessages (collectToolResponses (pre ++ m :: post)) pre).2
      (toolUseIds bs)).1 =
      (toolUseIds bs).flatMap (fun i => resultMsgsFor (pre ++ m :: post) i) := by
    rw [flushResults_eq_flatMap (toolUseIds bs) _ hnids]
    apply flatMap_congr_mem
    intro i hi
    rw [processMessages_qGet_ne pre _ i (hids_pre i hi),
      collectToolResponses_qGet i (pre ++ m :: post)]
  have hwalk : (processMessages (collectToolResponses (pre ++ m :: post))
      (pre ++ m :: post)).1 =
      (processMessages (collectToolResponses (pre ++ m :: post)) pre).1 ++
      ((assistantMessageOut bs ::
          (toolUseIds bs).flatMap (fun i => resultMsgsFor (pre ++ m :: post) i)) ++
        (processMessages (flushResults
          (processMessages (collectToolResponses (pre ++ m :: post)) pre).2
          (toolUseIds bs)).2 post).1) := by
    rw [processMessages_append pre (m :: post)]
    dsimp only
    rw [processMessages_cons, processMessage_assistant m bs hrole hcont]
    dsimp only
    rw [hflush]
  refine ⟨⟨systemMessages sys ++
      (processMessages (collectToolResponses (pre ++ m :: post)) pre).1,
      (processMessages (flushResults
        (processMessages (collectToolResponses (pre ++ m :: post)) pre).2
        (toolUseIds bs)).2 post).1 ++
      leftoverMsgs (processMessages
        (collectToolResponses (pre ++ m :: post)) (pre ++ m :: post)).2, ?_⟩, ?_, hT⟩
  · rw [hT, hwalk]
    simp [List.append_assoc]
  · intro t ht r hr
    have hq : qGet (processMessages (collectToolResponses (pre ++ m :: post))
        (pre ++ m :: post)).2 t =
        qGet (collectToolResponses (pre ++ m :: post)) t :=
      processMessages_qGet_ne (pre ++ m :: post) _ t ht
    have hgd := collectToolResponses_qGet t (pre ++ m :: post)
    cases hg : qGet (collectToolResponses (pre ++ m :: post)) t with
    | none =>
      have hempty : resultMsgsFor (pre ++ m :: post) t = [] := by
        rw [hg] at hgd
        simpa using hgd.symm
      rw [hempty] at hr
      cases hr
    | some rs =>
      rw [hg] at hgd
      simp only [Option.getD_some] at hgd
      refine leftover_of_qGet _ t rs (hq.trans hg) r ?_
      rw [hgd]
      exact hr

/-- Concrete assistant message with one tool call for the C3 witness. -/
def c3asst : CMsg :=
  { role := "assistant", content := CContent.blocks [CBlock.toolUse "t1" "f" "\x7b\x7d"] }

/-- Concrete user message carrying the matching tool result for the C3
witness. -/
def c3result : CMsg :=
  { role := "user", content := CContent.blocks [CBlock.toolResult "t1" "42"] }

/-- Closed witness for `c3_tool_result_placement` at a concrete two-message
conversation. -/
theorem c3_tool_result_placement_witness :
    (∃ A B, transformClaudeToOpenAI none ([] ++ c3asst :: [c3result]) =
        A ++ (assistantMessageOut [CBlock.toolUse "t1" "f" "\x7b\x7d"] ::
          (toolUseIds [CBlock.toolUse "t1" "f" "\x7b\x7d"]).flatMap
            (fun i => resultMsgsFor ([] ++ c3asst :: [c3result]) i)) ++ B) ∧
    (∀ t, t ∉ allToolIds ([] ++ c3asst :: [c3result]) →
      ∀ r ∈ resultMsgsFor ([] ++ c3asst :: [c3result]) t,
        r ∈ leftoverMsgs (processMessages
          (collectToolResponses ([] ++ c3asst :: [c3result]))
          ([] ++ c3asst :: [c3result])).2) ∧
    transformClaudeToOpenAI none ([] ++ c3asst :: [c3result]) =
      (systemMessages none ++
        (processMessages (collectToolResponses ([] ++ c3asst :: [c3result]))
          ([] ++ c3asst :: [c3result])).1) ++
      leftoverMsgs (processMessages
        (collectToolResponses ([] ++ c3asst :: [c3result]))
        ([] ++ c3asst :: [c3result])).2 :=
  c3_tool_result_placement none [] [c3result] c3asst
    [CBlock.toolUse "t1" "f" "\x7b\x7d"] rfl rfl (by decide)
